import Mathlib

/-! Mesen Windows renderer: frame handoff, toasts, text wrapping, render pass.

A shallow embedding of `Windows/Renderer.cpp` (namespace `NES`, class `Renderer`).
Member variables become fields of the structure `Renderer`; member functions become
functions on that structure.  Calls into Direct3D / DirectXTK (clearing the render
target, sprite-batch draws, presenting the swap chain) are recorded as a list of
`DrawOp` values returned next to the new state, in program order.

The two threads (emulation producer, presentation consumer) are not modelled; each member
function is embedded as one sequential step.

Arithmetic is the code's own.  `float` values (text widths, draw coordinates) live in a
type parameter with the operations the code applies to them, `double` values (timer
readings, the FPS quotient) in another one, and the integer members declared in
`Renderer.h` have a fixed width that is a parameter (`Declarations`).
-/

namespace NES

/-! ## Integer members -/

/-- A fixed-width C++ integer type: its width in bits and its signedness. -/
structure IntType where
  bits : Nat
  signed : Bool
  bits_pos : 0 < bits
deriving DecidableEq

/-- Smallest value of an integer type. -/
def IntType.minValue (t : IntType) : Int :=
  if t.signed then -(2 ^ (t.bits - 1)) else 0

/-- Largest value of an integer type. -/
def IntType.maxValue (t : IntType) : Int :=
  if t.signed then 2 ^ (t.bits - 1) - 1 else 2 ^ t.bits - 1

/-- The value an integer type holds after a result `v` is stored in it: `v` reduced
modulo `2 ^ bits` into the range of the type.  For an unsigned type this is the C++ rule;
for a signed type it is the two's complement result (C++ leaves overflow of a signed type
of `int` width or more undefined). -/
def IntType.wrap (t : IntType) (v : Int) : Int :=
  if t.signed then (v + 2 ^ (t.bits - 1)) % 2 ^ t.bits - 2 ^ (t.bits - 1)
  else v % 2 ^ t.bits

/-- The value of the expression `a - b` for two members of type `t`: operands narrower
than `int` (32 bits) are promoted to `int` and the difference is exact; otherwise the
difference is taken in `t`. -/
def IntType.sub (t : IntType) (a b : Int) : Int :=
  if t.bits < 32 then a - b else t.wrap (a - b)

/-- Modelled from the spec: the declarations of `Renderer.h`, which is not part of the
sources: the integer type of the counters `_frameCount` and `_lastFrameCount`, and the
integer type of `_currentFPS`. -/
structure Declarations where
  counter : IntType
  fps : IntType
deriving DecidableEq

/-! ## Frame handoff buffers -/

/-- Number of bytes moved by the `memcpy` in `Renderer::UpdateFrame`: `256 * 240 * 2`. -/
def frameBytes : Nat := 256 * 240 * 2

/-- Size in bytes of `uint16_t`. -/
def sizeofUInt16 : Nat := 2

/-- Model of `memcpy(dst, src, n)` on byte lists: the first `n` bytes of `dst` are replaced
by the first `n` bytes of `src`.  The call is defined only when both buffers hold at least
`n` bytes; every use below is under that bound. -/
def memcpy (dst src : List Nat) (n : Nat) : List Nat :=
  src.take n ++ dst.drop n

/-- One of the two PPU output buffers of the renderer, `_ppuOutputBuffer` and
`_ppuOutputSecondaryBuffer`: each is allocated in `InitDevice` as
`new uint16_t[_screenWidth * _screenHeight]` for the 256 x 240 screen set by the
constructor, that is `256 * 240 * 2` bytes. -/
structure FrameBuffer where
  bytes : List Nat
  size_eq : bytes.length = frameBytes
deriving DecidableEq

/-- Modelled from the spec: a toast entry (class `ToastInfo`, declared outside
`Renderer.cpp`): title, message, creation timestamp, display duration in ms and an
optional icon file, as built in `Renderer::DisplayMessage`. -/
structure ToastInfo where
  title : List Char
  message : List Char
  createdAt : Int
  durationMs : Int
  icon : Option (List Char)
deriving DecidableEq, Repr

/-- Modelled from the spec: `ToastInfo::IsToastExpired` at time `now`: an entry is expired
when `now - createdAt > durationMs`. -/
def ToastInfo.IsToastExpired (now : Int) (toast : ToastInfo) : Bool :=
  decide (now - toast.createdAt > toast.durationMs)

/-- Modelled from the spec: the `Timer` class (Utilities, not part of `Renderer.cpp`), an
elapsed-time timer in milliseconds.  Only its interface is used: the values returned by
`GetElapsedMS` are inputs of `Render` (see `RenderEnv`), and the state records how many
times the timer was reset. -/
structure Timer where
  resets : Nat
deriving DecidableEq

/-- Modelled from the spec: `Timer::Reset`. -/
def Timer.Reset (t : Timer) : Timer := { resets := t.resets + 1 }

/-- The member variables of `Renderer` used by the functions below.  The integer members
hold values of the types given by `Declarations`. -/
structure Renderer where
  screenWidth : Nat
  screenHeight : Nat
  hdScreenWidth : Nat
  hdScreenHeight : Nat
  ppuOutputBuffer : FrameBuffer
  ppuOutputSecondaryBuffer : FrameBuffer
  frameChanged : Bool
  frameCount : Int
  lastFrameCount : Int
  currentFPS : Int
  fpsTimer : Timer
  toasts : List ToastInfo
deriving DecidableEq

/-- Embedding of `Renderer::UpdateFrame(void* frameBuffer)`, `frameBuffer` being the bytes
of the object the pointer refers to.  The `memcpy` reads `256 * 240 * 2` bytes from it:
on a shorter object the read is out of bounds and the call has no defined result
(`none`).  Otherwise the bytes are copied into `_ppuOutputBuffer` (under the frame lock),
then `_frameChanged = true` and `_frameCount++` in the counter's type.  The function
returns `void`: it has no failure result of its own. -/
def Renderer.UpdateFrame (decl : Declarations) (r : Renderer) (frameBuffer : List Nat) :
    Option Renderer :=
  if h : 256 * 240 * 2 ≤ frameBuffer.length then
    some { r with
      ppuOutputBuffer :=
        { bytes := memcpy r.ppuOutputBuffer.bytes frameBuffer (256 * 240 * 2)
          size_eq := by
            have hd := r.ppuOutputBuffer.size_eq
            unfold frameBytes at hd ⊢
            rw [memcpy, List.length_append, List.length_take, List.length_drop, hd]
            omega }
      frameChanged := true
      frameCount := decl.counter.wrap (r.frameCount + 1) }
  else none

/-- The copy at the start of `Renderer::DrawNESScreen`:
`memcpy(_ppuOutputSecondaryBuffer, _ppuOutputBuffer, 256 * 240 * sizeof(uint16_t))`.
Both buffers hold that many bytes. -/
def Renderer.acquireForRender (r : Renderer) : Renderer :=
  { r with
    ppuOutputSecondaryBuffer :=
      { bytes := memcpy r.ppuOutputSecondaryBuffer.bytes r.ppuOutputBuffer.bytes
          (256 * 240 * sizeofUInt16)
        size_eq := by
          have hd := r.ppuOutputSecondaryBuffer.size_eq
          have hs := r.ppuOutputBuffer.size_eq
          unfold frameBytes at hd hs ⊢
          unfold sizeofUInt16
          rw [memcpy, List.length_append, List.length_take, List.length_drop, hd, hs]
          omega } }

/-! ## Toast queue -/

/-- Embedding of `std::list::remove_if`: one pass from the front, erasing every element
for which the predicate holds. -/
def removeIf {α : Type} (pred : α → Bool) : List α → List α
  | [] => []
  | x :: rest => if pred x then removeIf pred rest else x :: removeIf pred rest

/-- Embedding of `Renderer::DisplayToast`: `_toasts.push_front(toast)`. -/
def Renderer.DisplayToast (r : Renderer) (toast : ToastInfo) : Renderer :=
  { r with toasts := toast :: r.toasts }

/-- Embedding of `Renderer::RemoveOldToasts`: `_toasts.remove_if(IsToastExpired)`.  The
expiry test `ToastInfo::IsToastExpired` is declared outside `Renderer.cpp` and is a
parameter here. -/
def Renderer.RemoveOldToasts (isToastExpired : ToastInfo → Bool) (r : Renderer) : Renderer :=
  { r with toasts := removeIf isToastExpired r.toasts }

/-! ## Drawing operations -/

/-- The two named colours used by the render pass. -/
inductive Color where
  | Black
  | AntiqueWhite
deriving DecidableEq, Repr

/-- One call into the display surface, in the order the render pass issues them.  `F` is
the type of the `float` arguments. -/
inductive DrawOp (F : Type) where
  /-- The call `_pDeviceContext->ClearRenderTargetView(_pRenderTargetView, Colors::Black)`. -/
  | ClearRenderTargetView
  /-- The call `_spriteBatch->Begin(...)`. -/
  | SpriteBatchBegin
  /-- The NES screen: decode of the snapshot, upload and sprite-batch draw. -/
  | DrawScreen (snapshot : List Nat)
  /-- The gray translucent overlay `0x99222222` drawn by `DrawPauseScreen`. -/
  | DrawPauseShade
  /-- One `_font->DrawString(spritebatch, text, XMFLOAT2(x, y), color, ..., scale)`. -/
  | DrawString (text : List Char) (x y : F) (color : Color) (scale : F)
  /-- One call `DrawToast(toast, posIndex)`. -/
  | DrawToast (toast : ToastInfo) (posIndex : Int)
  /-- The call `_spriteBatch->End()`. -/
  | SpriteBatchEnd
  /-- The call `_pSwapChain->Present(0, 0)`. -/
  | Present
deriving DecidableEq

/-- The loop of `Renderer::DrawToasts` over `_toasts` with its `counter`: a toast is drawn
at position `counter` while `counter < 3`, and the loop breaks otherwise. -/
def drawToastsLoop {F : Type} : List ToastInfo → Int → List (DrawOp F)
  | [], _ => []
  | toast :: rest, counter =>
    if counter < 3 then DrawOp.DrawToast toast counter :: drawToastsLoop rest (counter + 1)
    else []

/-- Embedding of `Renderer::DrawToasts`: `RemoveOldToasts()`, then the loop from
`counter = 0`. -/
def Renderer.DrawToasts {F : Type} (isToastExpired : ToastInfo → Bool) (r : Renderer) :
    Renderer × List (DrawOp F) :=
  let r1 := r.RemoveOldToasts isToastExpired
  (r1, drawToastsLoop r1.toasts 0)

/-- The eight black draws of one iteration of the inner loop body of
`Renderer::DrawOutlinedString`, in source order.  The coordinates are the code's own
sums and differences `x + offsetX`, `x - offsetX`, `y + offsetY`, `y - offsetY` in `float`,
the `uint8_t` offsets converted to `float`. -/
def outlineBody {F : Type} [Add F] [Sub F] [NatCast F] (text : List Char) (x y scale : F)
    (offsetX offsetY : Nat) : List (DrawOp F) :=
  [ DrawOp.DrawString text (x + (offsetX : F)) (y + (offsetY : F)) Color.Black scale,
    DrawOp.DrawString text (x - (offsetX : F)) (y + (offsetY : F)) Color.Black scale,
    DrawOp.DrawString text (x + (offsetX : F)) (y - (offsetY : F)) Color.Black scale,
    DrawOp.DrawString text (x - (offsetX : F)) (y - (offsetY : F)) Color.Black scale,
    DrawOp.DrawString text (x + (offsetX : F)) y Color.Black scale,
    DrawOp.DrawString text (x - (offsetX : F)) y Color.Black scale,
    DrawOp.DrawString text x (y + (offsetY : F)) Color.Black scale,
    DrawOp.DrawString text x (y - (offsetY : F)) Color.Black scale ]

/-- Inner loop `for(uint8_t offsetY = ...; offsetY > 0; offsetY--)`, entered with the
given value of `offsetY`. -/
def outlineLoopY {F : Type} [Add F] [Sub F] [NatCast F] (text : List Char) (x y scale : F)
    (offsetX : Nat) : Nat → List (DrawOp F)
  | 0 => []
  | offsetY + 1 =>
    outlineBody text x y scale offsetX (offsetY + 1) ++ outlineLoopY text x y scale offsetX offsetY

/-- Outer loop `for(uint8_t offsetX = ...; offsetX > 0; offsetX--)`, entered with the
given value of `offsetX`; the inner loop starts from `offsetY = 2` each time. -/
def outlineLoopX {F : Type} [Add F] [Sub F] [NatCast F] (text : List Char) (x y scale : F) :
    Nat → List (DrawOp F)
  | 0 => []
  | offsetX + 1 =>
    outlineLoopY text x y scale (offsetX + 1) 2 ++ outlineLoopX text x y scale offsetX

/-- Embedding of `Renderer::DrawOutlinedString`: the two nested loops from `offsetX = 2`,
then the final draw in `color` at `(x, y)`. -/
def DrawOutlinedString {F : Type} [Add F] [Sub F] [NatCast F] (message : List Char) (x y : F)
    (color : Color) (scale : F) : List (DrawOp F) :=
  outlineLoopX message x y scale 2 ++ [DrawOp.DrawString message x y color scale]

/-- Embedding of `Renderer::DrawNESScreen`: the snapshot copy under the frame lock, then
the decode, upload and draw of that snapshot. -/
def Renderer.DrawNESScreen {F : Type} (r : Renderer) : Renderer × List (DrawOp F) :=
  let r1 := r.acquireForRender
  (r1, [DrawOp.DrawScreen r1.ppuOutputSecondaryBuffer.bytes])

/-- Embedding of `Renderer::DrawPauseScreen`: the overlay, then the outlined "PAUSED"
label at `((float)_hdScreenWidth / 2 - 145, (float)_hdScreenHeight / 2 - 47)` with scale
`4.5f`, all in the code's `float` arithmetic. -/
def Renderer.DrawPauseScreen {F : Type} [Add F] [Sub F] [Div F] [NatCast F] [OfScientific F]
    (r : Renderer) : List (DrawOp F) :=
  DrawOp.DrawPauseShade ::
    DrawOutlinedString "PAUSED".toList ((r.hdScreenWidth : F) / ((2 : Nat) : F) - ((145 : Nat) : F))
      ((r.hdScreenHeight : F) / ((2 : Nat) : F) - ((47 : Nat) : F)) Color.AntiqueWhite (4.5 : F)

/-! ## Render pass -/

/-- What `Renderer::Render` takes from outside `Renderer.cpp` during one call: the two
emulation flags (`EmulationFlags::Paused`, `EmulationFlags::ShowFPS`, each with one value
for the whole call), the `double` values returned by the two calls of
`_fpsTimer.GetElapsedMS()` (the test and the division), the conversion
`(int)(std::round(x))` of a `double` to `int`, and the toast expiry test.  `D` is the type
of `double` values. -/
structure RenderEnv (D : Type) where
  paused : Bool
  showFPS : Bool
  elapsedAtCheck : D
  elapsedAtSample : D
  roundToInt : D → Int
  isToastExpired : ToastInfo → Bool

/-- The block `if(_fpsTimer.GetElapsedMS() > 1000) { ... }` of `Renderer::Render`: the
comparison, the division `GetElapsedMS() / 1000` and the division of the converted
delta by it are the code's own operations on `double`, the literal `1000` and the delta
converted to `double`. -/
def Renderer.updateFPS {D : Type} [LT D] [DecidableRel (fun a b : D => a < b)] [Div D]
    [NatCast D] [IntCast D] (decl : Declarations) (env : RenderEnv D) (r : Renderer) :
    Renderer :=
  if env.elapsedAtCheck > ((1000 : Nat) : D) then
    { r with
      currentFPS :=
        if decl.counter.sub r.frameCount r.lastFrameCount < 0 then 0
        else decl.fps.wrap (env.roundToInt
          (((decl.counter.sub r.frameCount r.lastFrameCount : Int) : D) /
            (env.elapsedAtSample / ((1000 : Nat) : D))))
      lastFrameCount := r.frameCount
      fpsTimer := r.fpsTimer.Reset }
  else r

/-- The FPS string `"FPS: " + std::to_string(_currentFPS)`. -/
def fpsString (currentFPS : Int) : List Char :=
  "FPS: ".toList ++ (toString currentFPS).toList

/-- The pause / FPS branch of `Renderer::Render`; the FPS string is drawn at
`(256 * 4 - 80, 13)` with scale `1.0f`. -/
def Renderer.drawOverlay {F D : Type} [Add F] [Sub F] [Div F] [NatCast F] [OfScientific F]
    [LT D] [DecidableRel (fun a b : D => a < b)] [Div D] [NatCast D] [IntCast D]
    (decl : Declarations) (env : RenderEnv D) (r : Renderer) : Renderer × List (DrawOp F) :=
  if env.paused then (r, r.DrawPauseScreen)
  else if env.showFPS then
    let r1 := r.updateFPS decl env
    (r1, DrawOutlinedString (fpsString r1.currentFPS) (((256 * 4 - 80 : Nat)) : F)
      ((13 : Nat) : F) Color.AntiqueWhite (1.0 : F))
  else (r, [])

/-- Embedding of `Renderer::Render`. -/
def Renderer.Render {F D : Type} [Add F] [Sub F] [Div F] [NatCast F] [OfScientific F]
    [LT D] [DecidableRel (fun a b : D => a < b)] [Div D] [NatCast D] [IntCast D]
    (decl : Declarations) (env : RenderEnv D) (r : Renderer) : Renderer × List (DrawOp F) :=
  if r.frameChanged || env.paused || !r.toasts.isEmpty then
    let r1 := { r with frameChanged := false }
    let screen : Renderer × List (DrawOp F) := r1.DrawNESScreen
    let overlay : Renderer × List (DrawOp F) := screen.1.drawOverlay decl env
    let toasts : Renderer × List (DrawOp F) := overlay.1.DrawToasts env.isToastExpired
    (toasts.1,
      [DrawOp.ClearRenderTargetView, DrawOp.SpriteBatchBegin] ++ screen.2 ++ overlay.2 ++
        toasts.2 ++ [DrawOp.SpriteBatchEnd, DrawOp.Present])
  else (r, [])

/-! ## Text wrapping -/

/-- The first loop of `Renderer::WrapText`, from position `i` of the text on: `currentWord`
and `words` are the loop variables; the final `if(currentWord.length() > 0)` is the
base case. -/
def splitLoop : List Char → List Char → List (List Char) → List (List Char)
  | [], currentWord, words =>
    if currentWord.length > 0 then words ++ [currentWord] else words
  | c :: rest, currentWord, words =>
    if c = ' ' ∨ c = '\n' then
      if currentWord.length > 0 then splitLoop rest [] (words ++ [currentWord])
      else splitLoop rest currentWord words
    else splitLoop rest (currentWord ++ [c]) words

/-- The list `words` built by `Renderer::WrapText`. -/
def splitWords (text : List Char) : List (List Char) :=
  splitLoop text [] []

/-- The loop `for(unsigned int i = ...; i < word.size(); i++)` of `Renderer::WrapText`
with `remaining` iterations left: `word[i]` becomes `?` when the font lacks it. -/
def replaceLoop (containsCharacter : Char → Bool) : Nat → Nat → List Char → List Char
  | 0, _, word => word
  | remaining + 1, i, word =>
    match word[i]? with
    | some c =>
      if !containsCharacter c then replaceLoop containsCharacter remaining (i + 1) (word.set i '?')
      else replaceLoop containsCharacter remaining (i + 1) word
    | none => word

/-- The glyph substitution of one word, from `i = 0` to `word.size()`. -/
def replaceUnsupported (containsCharacter : Char → Bool) (word : List Char) : List Char :=
  replaceLoop containsCharacter word.length 0 word

/-- The second loop of `Renderer::WrapText` over the remaining words, with loop variables
`lineWidth` and `wrappedText`.  Widths live in any type `W` with the zero, addition and
strict comparison used by the code (`float` in the source). -/
def wrapLoop {W : Type} [Add W] [LT W] [DecidableRel (fun a b : W => a < b)]
    (measureString : List Char → W) (containsCharacter : Char → Bool)
    (maxLineWidth spaceWidth : W) : List (List Char) → W → List Char → List Char
  | [], _, wrappedText => wrappedText
  | word :: rest, lineWidth, wrappedText =>
    let word1 := replaceUnsupported containsCharacter word
    let wordWidth := measureString word1
    if lineWidth + wordWidth < maxLineWidth then
      wrapLoop measureString containsCharacter maxLineWidth spaceWidth rest
        (lineWidth + (wordWidth + spaceWidth)) (wrappedText ++ (word1 ++ [' ']))
    else
      wrapLoop measureString containsCharacter maxLineWidth spaceWidth rest
        (wordWidth + spaceWidth) (wrappedText ++ (['\n'] ++ word1 ++ [' ']))

/-- Embedding of `Renderer::WrapText` on the decoded text: `measureString` and
`containsCharacter` are the two font queries (`SpriteFont::MeasureString`,
`SpriteFont::ContainsCharacter`). -/
def WrapText {W : Type} [Zero W] [Add W] [LT W] [DecidableRel (fun a b : W => a < b)]
    (text : List Char) (measureString : List Char → W) (containsCharacter : Char → Bool)
    (maxLineWidth : W) : List Char :=
  wrapLoop measureString containsCharacter maxLineWidth (measureString [' '])
    (splitWords text) 0 []

/-! ## Reference definitions used in the statements -/

/-- The separator test of the spec: a space or a line break. -/
def isSeparator (c : Char) : Bool := c = ' ' || c = '\n'

/-- Words as the spec describes them: the text split at separators, empty runs dropped. -/
def specWords (text : List Char) : List (List Char) :=
  (text.splitOnP isSeparator).filter (fun w => !w.isEmpty)

/-- Glyph substitution of one character: kept when the font contains it, `?` otherwise. -/
def substituteGlyph (containsGlyph : Char → Bool) (c : Char) : Char :=
  if containsGlyph c then c else '?'

/-- One step of the greedy reference of the spec on the pair (output, lineWidth). -/
def greedyStep {W : Type} [Add W] [LT W] [DecidableRel (fun a b : W => a < b)]
    (measure : List Char → W) (maxWidth spaceWidth : W)
    (state : List Char × W) (word : List Char) : List Char × W :=
  if state.2 + measure word < maxWidth then
    (state.1 ++ word ++ [' '], state.2 + (measure word + spaceWidth))
  else
    (state.1 ++ ['\n'] ++ word ++ [' '], measure word + spaceWidth)

/-- The greedy reference of the spec: from an empty output and `lineWidth = 0`, one
`greedyStep` per glyph-substituted word, in order. -/
def greedyReference {W : Type} [Zero W] [Add W] [LT W] [DecidableRel (fun a b : W => a < b)]
    (text : List Char) (measure : List Char → W) (containsGlyph : Char → Bool)
    (maxWidth : W) : List Char :=
  (((specWords text).map (List.map (substituteGlyph containsGlyph))).foldl
    (greedyStep measure maxWidth (measure [' '])) ([], 0)).1

/-- Greedy packing of words whose widths are given: the output for the remaining
(word, width) pairs when the current line is `lineWidth` wide. -/
def packWords {W : Type} [Add W] [LT W] [DecidableRel (fun a b : W => a < b)]
    (maxWidth spaceWidth : W) : List (List Char × W) → W → List Char
  | [], _ => []
  | (word, width) :: rest, lineWidth =>
    if lineWidth + width < maxWidth then
      word ++ [' '] ++ packWords maxWidth spaceWidth rest (lineWidth + (width + spaceWidth))
    else
      ['\n'] ++ word ++ [' '] ++ packWords maxWidth spaceWidth rest (width + spaceWidth)

/-- Number of lines of a wrapped text: its line breaks plus one. -/
def lineCount (wrapped : List Char) : Nat := wrapped.count '\n' + 1

/-- The widths the code uses for the words of a text: the measure of each
glyph-substituted word. -/
def wordWidths {W : Type} (text : List Char) (measureString : List Char → W)
    (containsCharacter : Char → Bool) : List W :=
  (splitWords text).map (fun w => measureString (replaceUnsupported containsCharacter w))

/-- Every word passes the fit test of the code: with the running `lineWidth` of the loop
(`lineWidth + (wordWidth + spaceWidth)` after each word put on the line), each word width
`w` in turn satisfies `lineWidth + w < maxWidth`. -/
def fitsAll {W : Type} [Add W] [LT W] [DecidableRel (fun a b : W => a < b)]
    (maxWidth spaceWidth : W) : W → List W → Bool
  | _, [] => true
  | lineWidth, w :: rest =>
    decide (lineWidth + w < maxWidth) &&
      fitsAll maxWidth spaceWidth (lineWidth + (w + spaceWidth)) rest

/-- Every word fails the fit test of the code against the line of the word before it:
with `lineWidth` the width of the current line and `wordWidth + spaceWidth` the width of a
line after a break, each word width `w` in turn does not satisfy
`lineWidth + w < maxWidth`. -/
def breaksAll {W : Type} [Add W] [LT W] [DecidableRel (fun a b : W => a < b)]
    (maxWidth spaceWidth : W) : W → List W → Bool
  | _, [] => true
  | lineWidth, w :: rest =>
    !decide (lineWidth + w < maxWidth) && breaksAll maxWidth spaceWidth (w + spaceWidth) rest

/-- The widths force one word per line without a leading break: the first word passes the
fit test on the empty line (`0 + w < maxWidth`), and every later word fails it against
the line holding the word before it. -/
def onePerLine {W : Type} [Zero W] [Add W] [LT W] [DecidableRel (fun a b : W => a < b)]
    (maxWidth spaceWidth : W) : List W → Bool
  | [] => true
  | w :: rest =>
    decide (0 + w < maxWidth) && breaksAll maxWidth spaceWidth (0 + (w + spaceWidth)) rest

/-- One word as it stands in a wrapped text: an optional line break, the word, one
space. -/
def wrappedPiece (lineBreak : Bool) (word : List Char) : List Char :=
  (if lineBreak then ['\n'] else []) ++ word ++ [' ']

/-- Whether a call is a text draw in `Colors::Black`. -/
def DrawOp.isBlackText {F : Type} : DrawOp F → Bool
  | DrawOp.DrawString _ _ _ Color.Black _ => true
  | _ => false

/-- The positions of the black draws of `Renderer::DrawOutlinedString` around `(x, y)`, in
draw order and in the code's own arithmetic: for each `dx` in 2, 1 and each `dy` in 2, 1,
the four diagonal neighbours, the two horizontal ones and the two vertical ones. -/
def outlinePositions {F : Type} [Add F] [Sub F] [NatCast F] (x y : F) : List (F × F) :=
  ([2, 1].map (fun dx : Nat =>
    ([2, 1].map (fun dy : Nat =>
      [(x + (dx : F), y + (dy : F)), (x - (dx : F), y + (dy : F)),
       (x + (dx : F), y - (dy : F)), (x - (dx : F), y - (dy : F)),
       (x + (dx : F), y), (x - (dx : F), y),
       (x, y + (dy : F)), (x, y - (dy : F))])).flatten)).flatten

/-- The eight ring positions of the spec around `(x, y)`, at `(+-2, 0)`, `(0, +-2)` and
`(+-2, +-2)`, in the code's own arithmetic. -/
def ringPositions {F : Type} [Add F] [Sub F] [NatCast F] (x y : F) : List (F × F) :=
  [(x + ((2 : Nat) : F), y), (x - ((2 : Nat) : F), y),
   (x, y + ((2 : Nat) : F)), (x, y - ((2 : Nat) : F)),
   (x + ((2 : Nat) : F), y + ((2 : Nat) : F)), (x - ((2 : Nat) : F), y + ((2 : Nat) : F)),
   (x + ((2 : Nat) : F), y - ((2 : Nat) : F)), (x - ((2 : Nat) : F), y - ((2 : Nat) : F))]

/-- Example declarations: 32-bit unsigned counters and a 32-bit signed FPS value. -/
def exampleDecl : Declarations :=
  { counter := { bits := 32, signed := false, bits_pos := by decide }
    fps := { bits := 32, signed := true, bits_pos := by decide } }

/-- A frame buffer filled with one byte value. -/
def FrameBuffer.filled (byte : Nat) : FrameBuffer :=
  { bytes := List.replicate frameBytes byte, size_eq := List.length_replicate _ _ }

/-- A renderer state as after construction (zeroed buffers, no frame yet, empty toast
queue), used in the examples. -/
def exampleRenderer : Renderer :=
  { screenWidth := 256, screenHeight := 240, hdScreenWidth := 1024, hdScreenHeight := 896,
    ppuOutputBuffer := FrameBuffer.filled 0, ppuOutputSecondaryBuffer := FrameBuffer.filled 0,
    frameChanged := false, frameCount := 0, lastFrameCount := 0, currentFPS := 0,
    fpsTimer := { resets := 0 }, toasts := [] }

/-- An example toast created at time `createdAt`, shown for 4000 ms as in
`Renderer::DisplayMessage`. -/
def exampleToast (title : String) (createdAt : Int) : ToastInfo :=
  { title := title.toList, message := [], createdAt := createdAt, durationMs := 4000,
    icon := none }

/-- The function `std::round` on exact rationals: nearest integer, halfway cases away from
zero. -/
def cRound (q : ℚ) : Int :=
  if 0 ≤ q then ⌊q + 1 / 2⌋ else -⌊-q + 1 / 2⌋

/-- An example environment of `Render` with exact rational arithmetic for `double`. -/
def exampleEnv (paused showFPS : Bool) (elapsedAtCheck elapsedAtSample : ℚ) (now : Int) :
    RenderEnv ℚ :=
  { paused := paused, showFPS := showFPS, elapsedAtCheck := elapsedAtCheck,
    elapsedAtSample := elapsedAtSample, roundToInt := cRound,
    isToastExpired := ToastInfo.IsToastExpired now }

/-! ## IEEE 754 binary arithmetic, for the examples

The theorems about `float` and `double` values hold for any arithmetic.  The instances
below give the examples a concrete one: finite binary floating-point values as rationals,
each operation rounded to nearest, ties to even.  Infinities, NaN and the sign of zero
are outside this model: it is used only where every result is finite and no divisor is
zero. -/

/-- Nearest integer of a rational, halfway cases to the even neighbour. -/
def roundHalfEven (x : ℚ) : Int :=
  if x - ⌊x⌋ < 1 / 2 then ⌊x⌋
  else if 1 / 2 < x - ⌊x⌋ then ⌊x⌋ + 1
  else if ⌊x⌋ % 2 = 0 then ⌊x⌋ else ⌊x⌋ + 1

/-- Spacing of the values of a binary format around `q`: `fractionBits` is the number of
stored fraction bits and `minExponent` the smallest normal exponent (52 and -1022 for
`double`, 23 and -126 for `float`). -/
def formatUlp (fractionBits : Nat) (minExponent : Int) (q : ℚ) : ℚ :=
  2 ^ (max (Int.log 2 |q|) minExponent - fractionBits)

/-- The value of a binary format nearest to `q`, ties to even (finite range). -/
def roundToFormat (fractionBits : Nat) (minExponent : Int) (q : ℚ) : ℚ :=
  (roundHalfEven (q / formatUlp fractionBits minExponent q) : ℚ) *
    formatUlp fractionBits minExponent q

/-- A finite `float` value (IEEE 754 binary32). -/
structure Binary32 where
  val : ℚ
deriving DecidableEq

/-- A finite `double` value (IEEE 754 binary64). -/
structure Binary64 where
  val : ℚ
deriving DecidableEq

/-- Rounding of a rational to `float`. -/
def Binary32.round (q : ℚ) : Binary32 := { val := roundToFormat 23 (-126) q }

/-- Rounding of a rational to `double`. -/
def Binary64.round (q : ℚ) : Binary64 := { val := roundToFormat 52 (-1022) q }

instance : Zero Binary32 := ⟨{ val := 0 }⟩

instance : LT Binary32 := ⟨fun a b => a.val < b.val⟩

instance : DecidableRel (fun a b : Binary32 => a < b) :=
  fun a b => inferInstanceAs (Decidable (a.val < b.val))

instance : Add Binary32 := ⟨fun a b => Binary32.round (a.val + b.val)⟩

instance : Sub Binary32 := ⟨fun a b => Binary32.round (a.val - b.val)⟩

instance : Div Binary32 := ⟨fun a b => Binary32.round (a.val / b.val)⟩

instance : NatCast Binary32 := ⟨fun n => Binary32.round n⟩

instance : OfScientific Binary32 :=
  ⟨fun m s e => Binary32.round (OfScientific.ofScientific m s e)⟩

instance : Div Binary64 := ⟨fun a b => Binary64.round (a.val / b.val)⟩

instance : LT Binary64 := ⟨fun a b => a.val < b.val⟩

instance : DecidableRel (fun a b : Binary64 => a < b) :=
  fun a b => inferInstanceAs (Decidable (a.val < b.val))

instance : NatCast Binary64 := ⟨fun n => Binary64.round n⟩

instance : IntCast Binary64 := ⟨fun n => Binary64.round n⟩

/-- The `float` nearest to 0.1. -/
def floatTenth : Binary32 := { val := 13421773 / 134217728 }

/-- The `float` nearest to 0.3. -/
def floatThreeTenths : Binary32 := { val := 5033165 / 16777216 }

/-- The conversion `(int)(std::round(x))` of a `double` whose rounded value fits `int`. -/
def Binary64.roundToInt (x : Binary64) : Int := cRound x.val

theorem IntType.wrap_of_range (t : IntType) (v : Int) (hmin : t.minValue ≤ v)
    (hmax : v ≤ t.maxValue) : t.wrap v = v := by
  have hpos := t.bits_pos
  have hpow : (2 : Int) ^ t.bits = 2 * 2 ^ (t.bits - 1) := by
    rw [← pow_succ']
    congr 1
    omega
  have hhalf : (0 : Int) < 2 ^ (t.bits - 1) := by positivity
  unfold IntType.wrap
  unfold IntType.minValue at hmin
  unfold IntType.maxValue at hmax
  cases hs : t.signed with
  | true =>
    simp only [hs, if_true] at hmin hmax ⊢
    rw [Int.emod_eq_of_lt (by omega) (by omega)]
    omega
  | false =>
    simp only [hs, Bool.false_eq_true, if_false] at hmin hmax ⊢
    exact Int.emod_eq_of_lt hmin (by omega)

/-! ## Frame handoff: theorems -/

theorem memcpy_full (dst src : List Nat) (n : Nat) (hd : dst.length = n) :
    memcpy dst src n = src.take n := by
  unfold memcpy
  rw [List.drop_of_length_le (by omega), List.append_nil]

theorem UpdateFrame_some (decl : Declarations) (r : Renderer) (frameBuffer : List Nat)
    (hlen : frameBytes ≤ frameBuffer.length) :
    ∃ r1, r.UpdateFrame decl frameBuffer = some r1 ∧
      r1.ppuOutputBuffer.bytes = frameBuffer.take frameBytes ∧
      r1.frameChanged = true ∧
      r1.frameCount = decl.counter.wrap (r.frameCount + 1) ∧
      r1.ppuOutputSecondaryBuffer = r.ppuOutputSecondaryBuffer ∧
      r1.lastFrameCount = r.lastFrameCount ∧ r1.currentFPS = r.currentFPS ∧
      r1.fpsTimer = r.fpsTimer ∧ r1.toasts = r.toasts := by
  have hn : (256 * 240 * 2 : Nat) = frameBytes := rfl
  have h : 256 * 240 * 2 ≤ frameBuffer.length := by rw [hn]; exact hlen
  refine ⟨_, dif_pos h, ?_, rfl, rfl, rfl, rfl, rfl, rfl, rfl⟩
  show memcpy r.ppuOutputBuffer.bytes frameBuffer (256 * 240 * 2) = _
  rw [hn, memcpy_full _ _ _ r.ppuOutputBuffer.size_eq]

theorem UpdateFrame_none (decl : Declarations) (r : Renderer) (frameBuffer : List Nat)
    (hlen : frameBuffer.length < frameBytes) : r.UpdateFrame decl frameBuffer = none := by
  have hn : (256 * 240 * 2 : Nat) = frameBytes := rfl
  exact dif_neg (by rw [hn]; omega)

theorem acquireForRender_bytes (r : Renderer) :
    r.acquireForRender.ppuOutputSecondaryBuffer.bytes = r.ppuOutputBuffer.bytes := by
  have hn : (256 * 240 * sizeofUInt16 : Nat) = frameBytes := rfl
  show memcpy r.ppuOutputSecondaryBuffer.bytes r.ppuOutputBuffer.bytes
    (256 * 240 * sizeofUInt16) = _
  rw [hn, memcpy_full _ _ _ r.ppuOutputSecondaryBuffer.size_eq,
    ← r.ppuOutputBuffer.size_eq, List.take_length]

theorem foldlM_UpdateFrame (decl : Declarations) (frames : List (List Nat)) (r : Renderer)
    (hvalid : ∀ b ∈ frames, b.length = frameBytes)
    (hmin : decl.counter.minValue ≤ r.frameCount)
    (hmax : r.frameCount + frames.length ≤ decl.counter.maxValue) :
    ∃ r1, frames.foldlM (Renderer.UpdateFrame decl) r = some r1 ∧
      r1.frameCount = r.frameCount + frames.length ∧
      r1.ppuOutputSecondaryBuffer = r.ppuOutputSecondaryBuffer := by
  induction frames generalizing r with
  | nil => exact ⟨r, rfl, by simp, rfl⟩
  | cons b rest ih =>
    obtain ⟨r1, h1, _, _, hc, hs, _⟩ :=
      UpdateFrame_some decl r b (le_of_eq (hvalid b (by simp)).symm)
    simp only [List.length_cons, Nat.cast_add, Nat.cast_one] at hmax
    rw [IntType.wrap_of_range _ _ (by omega) (by omega)] at hc
    obtain ⟨r2, h2, hc2, hs2⟩ := ih r1 (fun b hb => hvalid b (List.mem_cons_of_mem _ hb))
      (by omega) (by omega)
    refine ⟨r2, ?_, ?_, ?_⟩
    · rw [List.foldlM_cons, h1]
      exact h2
    · rw [hc2, hc, List.length_cons]
      push_cast
      ring
    · rw [hs2, hs]

/-- C2: after a non-empty sequence of valid frames (each of `frameBytes` bytes) submitted
with `UpdateFrame` on a renderer whose counter is in the range of its type and does not
overflow on the way, with no render in between, every call returns, the snapshot copied
by the next `acquireForRender` (the copy at the start of `DrawNESScreen`) is the last
frame in full, `frameCount` has grown by the number of frames, and `frameChanged` is
true. -/
theorem C2_last_writer_wins {F : Type} (decl : Declarations) (r : Renderer)
    (frames : List (List Nat)) (last : List Nat)
    (hvalid : ∀ b ∈ frames ++ [last], b.length = frameBytes)
    (hmin : decl.counter.minValue ≤ r.frameCount)
    (hmax : r.frameCount + (frames ++ [last]).length ≤ decl.counter.maxValue) :
    ∃ r1, (frames ++ [last]).foldlM (Renderer.UpdateFrame decl) r = some r1 ∧
      r1.acquireForRender.ppuOutputSecondaryBuffer.bytes = last ∧
      (r1.DrawNESScreen (F := F)).1.ppuOutputSecondaryBuffer.bytes = last ∧
      (r1.DrawNESScreen (F := F)).2 = [DrawOp.DrawScreen last] ∧
      r1.frameCount = r.frameCount + (frames ++ [last]).length ∧
      r1.frameChanged = true := by
  have hlast : last.length = frameBytes := hvalid last (by simp)
  simp only [List.length_append, List.length_singleton, Nat.cast_add, Nat.cast_one] at hmax
  obtain ⟨r0, h0, hc0, _⟩ := foldlM_UpdateFrame decl frames r
    (fun b hb => hvalid b (List.mem_append_left _ hb)) hmin (by omega)
  obtain ⟨r1, h1, hb, hf, hc, _⟩ := UpdateFrame_some decl r0 last (le_of_eq hlast.symm)
  rw [IntType.wrap_of_range _ _ (by omega) (by omega)] at hc
  have hpend : r1.ppuOutputBuffer.bytes = last := by
    rw [hb, ← hlast, List.take_length]
  have hsnap : r1.acquireForRender.ppuOutputSecondaryBuffer.bytes = last := by
    rw [acquireForRender_bytes, hpend]
  refine ⟨r1, ?_, hsnap, hsnap, ?_, ?_, hf⟩
  · rw [List.foldlM_append, h0]
    show (r0.UpdateFrame decl last >>= fun r2 => pure r2) = some r1
    rw [h1]
    rfl
  · show [DrawOp.DrawScreen r1.acquireForRender.ppuOutputSecondaryBuffer.bytes] = _
    rw [hsnap]
  · rw [hc, hc0, List.length_append, List.length_singleton]
    push_cast
    ring

/-- C2, for two frames of `frameBytes` bytes submitted on the freshly constructed
renderer. -/
theorem C2_last_writer_wins_witness :
    ∃ r1, ([List.replicate frameBytes 1] ++ [List.replicate frameBytes 2]).foldlM
        (Renderer.UpdateFrame exampleDecl) exampleRenderer = some r1 ∧
      r1.acquireForRender.ppuOutputSecondaryBuffer.bytes = List.replicate frameBytes 2 ∧
      r1.frameCount = 2 :=
  have h := C2_last_writer_wins (F := ℚ) exampleDecl exampleRenderer
    [List.replicate frameBytes 1]
    (List.replicate frameBytes 2) (by
      intro b hb
      simp only [List.mem_append, List.mem_singleton] at hb
      rcases hb with hb | hb <;> rw [hb, List.length_replicate])
    (by decide) (by decide)
  h.elim (fun r1 h1 => ⟨r1, h1.1, h1.2.1, h1.2.2.2.2.1⟩)

/-! ## Toast queue: theorems -/

theorem removeIf_eq_filter {α : Type} (pred : α → Bool) (l : List α) :
    removeIf pred l = l.filter (fun x => !pred x) := by
  induction l with
  | nil => rfl
  | cons x rest ih =>
    by_cases h : pred x = true
    · simp [removeIf, h, ih]
    · simp [removeIf, h, ih]

theorem removeIf_of_none {α : Type} (pred : α → Bool) (l : List α)
    (h : ∀ x ∈ l, pred x = false) : removeIf pred l = l := by
  rw [removeIf_eq_filter]
  apply List.filter_eq_self.mpr
  intro x hx
  simp [h x hx]

theorem foldl_DisplayToast_toasts (posted : List ToastInfo) (r : Renderer) :
    (posted.foldl Renderer.DisplayToast r).toasts = posted.reverse ++ r.toasts := by
  induction posted generalizing r with
  | nil => rfl
  | cons t rest ih =>
    simp only [List.foldl_cons, List.reverse_cons, List.append_assoc]
    rw [ih]
    rfl

theorem drawToastsLoop_eq {F : Type} (l : List ToastInfo) (k : Nat) :
    drawToastsLoop (F := F) l (k : Int) =
      ((l.take (3 - k)).enumFrom k).map (fun p => DrawOp.DrawToast p.2 (p.1 : Int)) := by
  induction l generalizing k with
  | nil => simp [drawToastsLoop]
  | cons t rest ih =>
    unfold drawToastsLoop
    by_cases hk : (k : Int) < 3
    · have hk2 : k < 3 := by omega
      obtain ⟨m, hm⟩ : ∃ m, 3 - k = m + 1 := ⟨2 - k, by omega⟩
      have ih1 := ih (k + 1)
      have hm2 : 3 - (k + 1) = m := by omega
      rw [hm2] at ih1
      rw [if_pos hk, hm, List.take_succ_cons, List.enumFrom_cons, List.map_cons]
      congr 1
    · have hk2 : 3 - k = 0 := by omega
      rw [if_neg hk, hk2]
      rfl

/-- C3: for every queue and every expiry predicate, `RemoveOldToasts` leaves exactly the
non-expired entries, unaltered and in their original order (it is the filter of the queue
by "not expired", a sub-sequence of the queue), touches nothing else in the renderer, and
is idempotent; with the spec's predicate the survivors are the entries with
`now - createdAt ≤ durationMs`. -/
theorem C3_RemoveOldToasts_exact (isToastExpired : ToastInfo → Bool) (r : Renderer) :
    (r.RemoveOldToasts isToastExpired).toasts
      = r.toasts.filter (fun t => !isToastExpired t) ∧
    List.Sublist (r.RemoveOldToasts isToastExpired).toasts r.toasts ∧
    (∀ t, t ∈ (r.RemoveOldToasts isToastExpired).toasts ↔
      t ∈ r.toasts ∧ isToastExpired t = false) ∧
    r.RemoveOldToasts isToastExpired
      = { r with toasts := r.toasts.filter (fun t => !isToastExpired t) } ∧
    (r.RemoveOldToasts isToastExpired).RemoveOldToasts isToastExpired
      = r.RemoveOldToasts isToastExpired ∧
    (∀ now : Int, (r.RemoveOldToasts (ToastInfo.IsToastExpired now)).toasts
      = r.toasts.filter (fun t => decide (now - t.createdAt ≤ t.durationMs))) := by
  have h1 : (r.RemoveOldToasts isToastExpired).toasts
      = r.toasts.filter (fun t => !isToastExpired t) := removeIf_eq_filter _ _
  refine ⟨h1, ?_, ?_, ?_, ?_, ?_⟩
  · rw [h1]; exact List.filter_sublist _
  · intro t
    rw [h1]
    simp [List.mem_filter]
  · show { r with toasts := removeIf isToastExpired r.toasts } = _
    rw [removeIf_eq_filter]
  · show { r with toasts := removeIf isToastExpired (removeIf isToastExpired r.toasts) }
      = { r with toasts := removeIf isToastExpired r.toasts }
    rw [removeIf_eq_filter, removeIf_eq_filter, List.filter_filter]
    simp
  · intro now
    show removeIf (ToastInfo.IsToastExpired now) r.toasts = _
    rw [removeIf_eq_filter]
    congr 1
    funext t
    show (!decide (now - t.createdAt > t.durationMs)) = decide (now - t.createdAt ≤ t.durationMs)
    by_cases h : now - t.createdAt > t.durationMs
    · have h2 : ¬ (now - t.createdAt ≤ t.durationMs) := by omega
      rw [decide_eq_true h, decide_eq_false h2]
      rfl
    · have h2 : now - t.createdAt ≤ t.durationMs := by omega
      rw [decide_eq_false h, decide_eq_true h2]
      rfl

/-- C4: after the toasts `posted` are posted in order with `DisplayToast` onto an empty
queue, none of them expired, `DrawToasts` issues exactly `min 3 n` `DrawToast` calls: the
`k`-th call (`k = 0, 1, 2`) draws the `k`-th queue entry, which is the `k`-th most
recently posted toast, at position index `k`; the queue holds all `n` entries, newest
first, so a toast posted twice is there twice. -/
theorem C4_DrawToasts_newest_three {F : Type} (isToastExpired : ToastInfo → Bool)
    (r : Renderer)
    (posted : List ToastInfo) (hempty : r.toasts = [])
    (hlive : ∀ t ∈ posted, isToastExpired t = false) :
    let r1 := posted.foldl Renderer.DisplayToast r
    r1.toasts = posted.reverse ∧
    (r1.DrawToasts (F := F) isToastExpired).2
      = ((posted.reverse.take 3).enum).map (fun p => DrawOp.DrawToast p.2 (p.1 : Int)) ∧
    (r1.DrawToasts (F := F) isToastExpired).2.length = min 3 posted.length ∧
    (∀ k : Nat, k < 3 → (r1.DrawToasts (F := F) isToastExpired).2[k]?
      = (r1.toasts[k]?).map (fun t => DrawOp.DrawToast t (k : Int))) ∧
    (r1.DrawToasts (F := F) isToastExpired).1.toasts = r1.toasts := by
  intro r1
  have hq : r1.toasts = posted.reverse := by
    show (posted.foldl Renderer.DisplayToast r).toasts = _
    rw [foldl_DisplayToast_toasts, hempty, List.append_nil]
  have hkeep : removeIf isToastExpired r1.toasts = r1.toasts := by
    apply removeIf_of_none
    intro t ht
    rw [hq] at ht
    exact hlive t (List.mem_reverse.mp ht)
  have hops : (r1.DrawToasts (F := F) isToastExpired).2
      = ((posted.reverse.take 3).enum).map (fun p => DrawOp.DrawToast p.2 (p.1 : Int)) := by
    show drawToastsLoop (F := F) (removeIf isToastExpired r1.toasts) 0 = _
    rw [hkeep, hq]
    exact drawToastsLoop_eq posted.reverse 0
  refine ⟨hq, hops, ?_, ?_, ?_⟩
  · rw [hops]
    simp [List.enum]
  · intro k hk
    rw [hops, hq]
    simp only [List.getElem?_map, List.enum, List.getElem?_enumFrom, List.getElem?_take]
    rw [if_pos hk]
    cases posted.reverse[k]? <;> simp
  · show removeIf isToastExpired r1.toasts = r1.toasts
    exact hkeep

/-- C4, for four live toasts, the second posted twice: three are drawn, newest first. -/
theorem C4_DrawToasts_newest_three_witness :
    ((([exampleToast "a" 0, exampleToast "b" 1, exampleToast "b" 1, exampleToast "c" 2].foldl
      Renderer.DisplayToast exampleRenderer).DrawToasts (F := ℚ)
        (ToastInfo.IsToastExpired 10)).2
      = [DrawOp.DrawToast (exampleToast "c" 2) 0, DrawOp.DrawToast (exampleToast "b" 1) 1,
         DrawOp.DrawToast (exampleToast "b" 1) 2]) ∧
    ([exampleToast "a" 0, exampleToast "b" 1, exampleToast "b" 1, exampleToast "c" 2].foldl
      Renderer.DisplayToast exampleRenderer).toasts
      = [exampleToast "c" 2, exampleToast "b" 1, exampleToast "b" 1, exampleToast "a" 0] :=
  have h := C4_DrawToasts_newest_three (F := ℚ) (ToastInfo.IsToastExpired 10) exampleRenderer
    [exampleToast "a" 0, exampleToast "b" 1, exampleToast "b" 1, exampleToast "c" 2] rfl
    (by decide)
  ⟨h.2.1, h.1⟩

/-! ## Render pass: theorems -/

theorem redraw_condition (paused : Bool) (r : Renderer)
    (h : r.frameChanged = true ∨ paused = true ∨ r.toasts ≠ []) :
    (r.frameChanged || paused || !r.toasts.isEmpty) = true := by
  rcases h with h | h | h
  · simp [h]
  · simp [h]
  · cases ht : r.toasts with
    | nil => exact absurd ht h
    | cons a l => simp

theorem Render_of_redraw {F D : Type} [Add F] [Sub F] [Div F] [NatCast F] [OfScientific F]
    [LT D] [DecidableRel (fun a b : D => a < b)] [Div D] [NatCast D] [IntCast D]
    (decl : Declarations) (env : RenderEnv D) (r : Renderer)
    (h : (r.frameChanged || env.paused || !r.toasts.isEmpty) = true) :
    r.Render (F := F) decl env =
      (((((({ r with frameChanged := false } : Renderer).DrawNESScreen (F := F)).1.drawOverlay
          (F := F) decl env).1).DrawToasts (F := F) env.isToastExpired).1,
        [DrawOp.ClearRenderTargetView, DrawOp.SpriteBatchBegin] ++
          (({ r with frameChanged := false } : Renderer).DrawNESScreen (F := F)).2 ++
          ((({ r with frameChanged := false } : Renderer).DrawNESScreen (F := F)).1.drawOverlay
            (F := F) decl env).2 ++
          ((((({ r with frameChanged := false } : Renderer).DrawNESScreen
            (F := F)).1.drawOverlay (F := F) decl env).1).DrawToasts (F := F)
              env.isToastExpired).2 ++
          [DrawOp.SpriteBatchEnd, DrawOp.Present]) := by
  unfold Renderer.Render
  rw [if_pos h]

theorem Render_of_idle {F D : Type} [Add F] [Sub F] [Div F] [NatCast F] [OfScientific F]
    [LT D] [DecidableRel (fun a b : D => a < b)] [Div D] [NatCast D] [IntCast D]
    (decl : Declarations) (env : RenderEnv D) (r : Renderer)
    (h : (r.frameChanged || env.paused || !r.toasts.isEmpty) = false) :
    r.Render (F := F) decl env = (r, []) := by
  unfold Renderer.Render
  rw [if_neg (by simp [h])]

/-- C8: with `frameChanged = false`, `paused = false` and an empty toast queue, `Render`
issues no call at all (no clear, no draw, no present) and returns the renderer state
unchanged; when `frameChanged`, `paused` or a non-empty queue holds, the calls start with
the clear of the render target and end with the present. -/
theorem C8_skip_redraw {F D : Type} [Add F] [Sub F] [Div F] [NatCast F] [OfScientific F]
    [LT D] [DecidableRel (fun a b : D => a < b)] [Div D] [NatCast D] [IntCast D]
    (decl : Declarations) (env : RenderEnv D) (r : Renderer) :
    (r.frameChanged = false → env.paused = false → r.toasts = [] →
      r.Render (F := F) decl env = (r, [])) ∧
    (r.frameChanged = true ∨ env.paused = true ∨ r.toasts ≠ [] →
      (r.Render (F := F) decl env).2.head? = some DrawOp.ClearRenderTargetView ∧
      (r.Render (F := F) decl env).2.getLast? = some DrawOp.Present ∧
      DrawOp.ClearRenderTargetView ∈ (r.Render (F := F) decl env).2 ∧
      DrawOp.Present ∈ (r.Render (F := F) decl env).2) := by
  constructor
  · intro h1 h2 h3
    exact Render_of_idle decl env r (by simp [h1, h2, h3])
  · intro h
    rw [Render_of_redraw decl env r (redraw_condition env.paused r h)]
    refine ⟨by simp, ?_, by simp, by simp⟩
    simp only [← List.append_assoc]
    rw [List.getLast?_append]
    simp

/-- C8, on the idle example renderer and on the same renderer with `frameChanged` set. -/
theorem C8_skip_redraw_witness :
    exampleRenderer.Render (F := ℚ) exampleDecl (exampleEnv false true 0 0 0)
      = (exampleRenderer, []) ∧
    DrawOp.Present ∈ (({ exampleRenderer with frameChanged := true }).Render (F := ℚ)
      exampleDecl (exampleEnv false true 0 0 0)).2 :=
  ⟨(C8_skip_redraw exampleDecl (exampleEnv false true 0 0 0) exampleRenderer).1 rfl rfl rfl,
   ((C8_skip_redraw exampleDecl (exampleEnv false true 0 0 0)
      { exampleRenderer with frameChanged := true }).2 (Or.inl rfl)).2.2.2⟩

theorem roundHalfEven_eq (x : ℚ) (m : Int) (h1 : (m : ℚ) - 1 / 2 < x)
    (h2 : x < (m : ℚ) + 1 / 2) : roundHalfEven x = m := by
  unfold roundHalfEven
  have hf1 : ⌊x⌋ ≤ m := by
    by_contra hc
    push_neg at hc
    have : (m : ℚ) + 1 ≤ ⌊x⌋ := by exact_mod_cast hc
    have := Int.floor_le x
    linarith
  have hf2 : m - 1 ≤ ⌊x⌋ := by
    apply Int.le_floor.mpr
    push_cast
    linarith
  have hfl := Int.floor_le x
  have hfl2 := Int.lt_floor_add_one x
  rcases (by omega : ⌊x⌋ = m ∨ ⌊x⌋ = m - 1) with h | h
  · rw [h] at hfl hfl2 ⊢
    rw [if_pos (by linarith)]
  · rw [h] at hfl hfl2 ⊢
    push_cast at hfl hfl2 ⊢
    rw [if_neg (by linarith), if_pos (by linarith)]
    ring

theorem roundHalfEven_tie (m : Int) (hm : m % 2 = 0) :
    roundHalfEven ((m : ℚ) + 1 / 2) = m := by
  have hfloor : ⌊(m : ℚ) + 1 / 2⌋ = m := by
    rw [Int.floor_eq_iff]
    constructor <;> linarith
  unfold roundHalfEven
  rw [hfloor, if_neg (by linarith), if_neg (by linarith), if_pos hm]

theorem formatUlp_eq (fractionBits : Nat) (minExponent : Int) (q : ℚ) (k : Int) (hq : 0 < q)
    (h1 : (2 : ℚ) ^ k ≤ q) (h2 : q < (2 : ℚ) ^ (k + 1)) (hk : minExponent ≤ k) :
    formatUlp fractionBits minExponent q = 2 ^ (k - fractionBits) := by
  unfold formatUlp
  have hlog : Int.log 2 |q| = k := by
    rw [abs_of_pos hq]
    apply le_antisymm
    · have := (Int.lt_zpow_iff_log_lt (b := 2) (by norm_num) hq).mp (by exact_mod_cast h2)
      omega
    · exact (Int.zpow_le_iff_le_log (b := 2) (by norm_num) hq).mp (by exact_mod_cast h1)
  rw [hlog, max_eq_left hk]

theorem roundToFormat_eq (fractionBits : Nat) (minExponent : Int) (q : ℚ) (k m : Int)
    (hq : 0 < q) (h1 : (2 : ℚ) ^ k ≤ q) (h2 : q < (2 : ℚ) ^ (k + 1)) (hk : minExponent ≤ k)
    (hm1 : ((m : ℚ) - 1 / 2) * 2 ^ (k - fractionBits) < q)
    (hm2 : q < ((m : ℚ) + 1 / 2) * 2 ^ (k - fractionBits)) :
    roundToFormat fractionBits minExponent q = (m : ℚ) * 2 ^ (k - fractionBits) := by
  unfold roundToFormat
  rw [formatUlp_eq fractionBits minExponent q k hq h1 h2 hk]
  have hu : (0 : ℚ) < 2 ^ (k - (fractionBits : Int)) := by positivity
  rw [roundHalfEven_eq _ m ((lt_div_iff₀ hu).mpr hm1) ((div_lt_iff₀ hu).mpr hm2)]

theorem roundToFormat_tie (fractionBits : Nat) (minExponent : Int) (q : ℚ) (k m : Int)
    (hq : 0 < q) (h1 : (2 : ℚ) ^ k ≤ q) (h2 : q < (2 : ℚ) ^ (k + 1)) (hk : minExponent ≤ k)
    (hm : m % 2 = 0) (hmid : q = ((m : ℚ) + 1 / 2) * 2 ^ (k - fractionBits)) :
    roundToFormat fractionBits minExponent q = (m : ℚ) * 2 ^ (k - fractionBits) := by
  unfold roundToFormat
  rw [formatUlp_eq fractionBits minExponent q k hq h1 h2 hk]
  have hu : (0 : ℚ) < 2 ^ (k - (fractionBits : Int)) := by positivity
  have hx : q / 2 ^ (k - (fractionBits : Int)) = (m : ℚ) + 1 / 2 := by
    rw [hmid, mul_div_assoc, div_self hu.ne', mul_one]
  rw [hx, roundHalfEven_tie m hm]

theorem binary64_thousand : ((1000 : Nat) : Binary64) = { val := 1000 } := by
  show Binary64.round ((1000 : Nat) : ℚ) = _
  unfold Binary64.round
  rw [roundToFormat_eq 52 (-1022) _ 9 8796093022208000 (by norm_num) (by norm_num)
    (by norm_num) (by norm_num) (by norm_num) (by norm_num)]
  norm_num

theorem binary64_sixty : ((60 : Int) : Binary64) = { val := 60 } := by
  show Binary64.round ((60 : Int) : ℚ) = _
  unfold Binary64.round
  rw [roundToFormat_eq 52 (-1022) _ 5 8444249301319680 (by norm_num) (by norm_num)
    (by norm_num) (by norm_num) (by norm_num) (by norm_num)]
  norm_num

theorem binary64_fps_60_over_1000 :
    Binary64.roundToInt (((60 : Int) : Binary64) /
      (((1000 : Nat) : Binary64) / ((1000 : Nat) : Binary64))) = 60 := by
  rw [binary64_thousand, binary64_sixty]
  have hden : (({ val := 1000 } : Binary64) / ({ val := 1000 } : Binary64)) = { val := 1 } := by
    show Binary64.round ((1000 : ℚ) / 1000) = _
    unfold Binary64.round
    rw [roundToFormat_eq 52 (-1022) _ 0 4503599627370496 (by norm_num) (by norm_num)
      (by norm_num) (by norm_num) (by norm_num) (by norm_num)]
    norm_num
  have hquot : (({ val := 60 } : Binary64) / ({ val := 1 } : Binary64)) = { val := 60 } := by
    show Binary64.round ((60 : ℚ) / 1) = _
    unfold Binary64.round
    rw [roundToFormat_eq 52 (-1022) _ 5 8444249301319680 (by norm_num) (by norm_num)
      (by norm_num) (by norm_num) (by norm_num) (by norm_num)]
    norm_num
  rw [hden, hquot]
  show cRound 60 = 60
  unfold cRound
  rw [if_pos (by norm_num), Int.floor_eq_iff]
  norm_num

theorem binary32_one : ((1 : Nat) : Binary32) = { val := 1 } := by
  show Binary32.round ((1 : Nat) : ℚ) = _
  unfold Binary32.round
  rw [roundToFormat_eq 23 (-126) _ 0 8388608 (by norm_num) (by norm_num)
    (by norm_num) (by norm_num) (by norm_num) (by norm_num)]
  norm_num

theorem binary32_add_one_absorbed :
    ({ val := 16777216 } : Binary32) + ((1 : Nat) : Binary32) = { val := 16777216 } := by
  rw [binary32_one]
  show Binary32.round ((16777216 : ℚ) + 1) = _
  unfold Binary32.round
  rw [roundToFormat_tie 23 (-126) _ 24 8388608 (by norm_num) (by norm_num)
    (by norm_num) (by norm_num) (by decide) (by norm_num)]
  norm_num

theorem binary32_zero_add_one :
    ({ val := 0 } : Binary32) + ((1 : Nat) : Binary32) = { val := 1 } := by
  rw [binary32_one]
  show Binary32.round ((0 : ℚ) + 1) = _
  unfold Binary32.round
  rw [roundToFormat_eq 23 (-126) _ 0 8388608 (by norm_num) (by norm_num)
    (by norm_num) (by norm_num) (by norm_num) (by norm_num)]
  norm_num

theorem binary32_position_example :
    (({ val := 16777216 }, { val := 1 }) : Binary32 × Binary32)
      ∈ outlinePositions ({ val := 16777216 } : Binary32) { val := 0 } := by
  have h : (({ val := 16777216 } : Binary32) + ((1 : Nat) : Binary32),
      ({ val := 0 } : Binary32) + ((1 : Nat) : Binary32))
      ∈ outlinePositions ({ val := 16777216 } : Binary32) { val := 0 } := by
    simp [outlinePositions]
  rw [binary32_add_one_absorbed, binary32_zero_add_one] at h
  exact h

theorem binary32_zero_add_tenth : (0 : Binary32) + floatTenth = floatTenth := by
  show Binary32.round ((0 : ℚ) + 13421773 / 134217728) = _
  unfold Binary32.round floatTenth
  rw [roundToFormat_eq 23 (-126) _ (-4) 13421773 (by norm_num) (by norm_num)
    (by norm_num) (by norm_num) (by norm_num) (by norm_num)]
  norm_num

theorem binary32_tenth_add_tenth :
    floatTenth + floatTenth = { val := 13421773 / 67108864 } := by
  show Binary32.round ((13421773 / 134217728 : ℚ) + 13421773 / 134217728) = _
  unfold Binary32.round
  rw [roundToFormat_eq 23 (-126) _ (-3) 13421773 (by norm_num) (by norm_num)
    (by norm_num) (by norm_num) (by norm_num) (by norm_num)]
  norm_num

theorem binary32_zero_add_fifth :
    (0 : Binary32) + ({ val := 13421773 / 67108864 } : Binary32)
      = { val := 13421773 / 67108864 } := by
  show Binary32.round ((0 : ℚ) + 13421773 / 67108864) = _
  unfold Binary32.round
  rw [roundToFormat_eq 23 (-126) _ (-3) 13421773 (by norm_num) (by norm_num)
    (by norm_num) (by norm_num) (by norm_num) (by norm_num)]
  norm_num

theorem binary32_fifth_add_tenth :
    ({ val := 13421773 / 67108864 } : Binary32) + floatTenth = floatThreeTenths := by
  show Binary32.round ((13421773 / 67108864 : ℚ) + 13421773 / 134217728) = _
  unfold Binary32.round floatThreeTenths
  rw [roundToFormat_eq 23 (-126) _ (-2) 10066330 (by norm_num) (by norm_num)
    (by norm_num) (by norm_num) (by norm_num) (by norm_num)]
  norm_num

theorem binary32_onePerLine_example :
    onePerLine floatThreeTenths floatTenth
      (wordWidths "a b".toList (fun _ => floatTenth) (fun _ => true)) = true := by
  have hw : wordWidths "a b".toList (fun _ => floatTenth) (fun _ => true)
      = [floatTenth, floatTenth] := rfl
  have h1 : floatTenth < floatThreeTenths := by
    show (13421773 / 134217728 : ℚ) < 5033165 / 16777216
    norm_num
  have h2 : ¬ (floatThreeTenths < floatThreeTenths) := by
    show ¬ ((5033165 / 16777216 : ℚ) < 5033165 / 16777216)
    norm_num
  rw [hw]
  simp only [onePerLine, breaksAll, binary32_tenth_add_tenth, binary32_zero_add_fifth,
    binary32_fifth_add_tenth, binary32_zero_add_tenth]
  rw [decide_eq_true h1, decide_eq_false h2]
  rfl

/-! ## Text wrapping: theorems -/

theorem replaceLoop_of_length_le (containsCharacter : Char → Bool) (n i : Nat)
    (word : List Char) (h : word.length ≤ i) :
    replaceLoop containsCharacter n i word = word := by
  cases n with
  | zero => rfl
  | succ n =>
    have : word[i]? = none := List.getElem?_eq_none h
    simp [replaceLoop, this]

theorem replaceLoop_append (containsCharacter : Char → Bool) (n : Nat)
    (done rest : List Char) :
    replaceLoop containsCharacter n done.length (done ++ rest) =
      done ++ (rest.take n).map (substituteGlyph containsCharacter) ++ rest.drop n := by
  induction n generalizing done rest with
  | zero => simp [replaceLoop]
  | succ n ih =>
    cases rest with
    | nil =>
      rw [replaceLoop_of_length_le _ _ _ _ (by simp)]
      simp
    | cons c rest =>
      have hget : (done ++ c :: rest)[done.length]? = some c := by
        rw [List.getElem?_append_right (le_refl _)]
        simp
      have hset : (done ++ c :: rest).set done.length '?' = (done ++ ['?']) ++ rest := by
        simp
      have hlen : done.length + 1 = (done ++ [substituteGlyph containsCharacter c]).length := by
        simp
      unfold replaceLoop
      rw [hget]
      by_cases hc : containsCharacter c = true
      · have hsub : substituteGlyph containsCharacter c = c := by simp [substituteGlyph, hc]
        have happ : done ++ c :: rest = (done ++ [substituteGlyph containsCharacter c]) ++ rest := by
          simp [hsub]
        simp only [hc, Bool.not_true, Bool.false_eq_true, if_false]
        rw [happ, hlen, ih]
        simp [hsub]
      · have hsub : substituteGlyph containsCharacter c = '?' := by simp [substituteGlyph, hc]
        simp only [hc, Bool.not_false, if_true]
        rw [hset, ← hsub, hlen, ih]
        simp

theorem replaceUnsupported_eq_map (containsCharacter : Char → Bool) (word : List Char) :
    replaceUnsupported containsCharacter word = word.map (substituteGlyph containsCharacter) := by
  have h := replaceLoop_append containsCharacter word.length [] word
  simpa [replaceUnsupported] using h

theorem modifyHead_nil_append (l : List (List Char)) :
    l.modifyHead (fun x => [] ++ x) = l := by
  cases l <;> simp

theorem splitLoop_eq (text currentWord : List Char) (words : List (List Char)) :
    splitLoop text currentWord words =
      words ++ (((text.splitOnP isSeparator).modifyHead (currentWord ++ ·)).filter
        (fun w => !w.isEmpty)) := by
  induction text generalizing currentWord words with
  | nil =>
    cases currentWord <;> simp [splitLoop]
  | cons c rest ih =>
    unfold splitLoop
    rw [List.splitOnP_cons]
    by_cases hc : c = ' ' ∨ c = '\n'
    · have hsep : isSeparator c = true := by
        rcases hc with h | h <;> simp [isSeparator, h]
      rw [if_pos hc, if_pos hsep]
      cases currentWord with
      | nil =>
        simp only [List.length_nil, lt_self_iff_false, if_false]
        rw [ih, modifyHead_nil_append, List.modifyHead_cons, List.filter_cons]
        simp
      | cons a w =>
        simp only [List.length_cons, Nat.zero_lt_succ, if_true]
        rw [ih, modifyHead_nil_append, List.modifyHead_cons, List.filter_cons]
        simp
    · have hsep : isSeparator c = false := by
        simp only [not_or] at hc
        simp [isSeparator, hc.1, hc.2]
      rw [if_neg hc, if_neg (by simp [hsep]), ih, List.modifyHead_modifyHead]
      congr 3
      funext x
      simp

theorem splitWords_eq_specWords (text : List Char) : splitWords text = specWords text := by
  unfold splitWords specWords
  rw [splitLoop_eq, modifyHead_nil_append]
  simp

theorem splitLoop_no_separator (text currentWord : List Char) (words : List (List Char))
    (hcur : ∀ c ∈ currentWord, c ≠ ' ' ∧ c ≠ '\n')
    (hwords : ∀ w ∈ words, w ≠ [] ∧ ∀ c ∈ w, c ≠ ' ' ∧ c ≠ '\n') :
    ∀ w ∈ splitLoop text currentWord words, w ≠ [] ∧ ∀ c ∈ w, c ≠ ' ' ∧ c ≠ '\n' := by
  induction text generalizing currentWord words with
  | nil =>
    unfold splitLoop
    intro w hw
    cases currentWord with
    | nil => exact hwords w (by simpa using hw)
    | cons a cur =>
      simp only [List.length_cons, Nat.zero_lt_succ, if_true, List.mem_append,
        List.mem_singleton] at hw
      rcases hw with hw | hw
      · exact hwords w hw
      · subst hw
        exact ⟨by simp, hcur⟩
  | cons c rest ih =>
    unfold splitLoop
    by_cases hc : c = ' ' ∨ c = '\n'
    · rw [if_pos hc]
      cases currentWord with
      | nil =>
        simp only [List.length_nil, lt_self_iff_false, if_false]
        exact ih [] words hcur hwords
      | cons a cur =>
        simp only [List.length_cons, Nat.zero_lt_succ, if_true]
        apply ih [] _ (by simp)
        intro w hw
        simp only [List.mem_append, List.mem_singleton] at hw
        rcases hw with hw | hw
        · exact hwords w hw
        · subst hw
          exact ⟨by simp, hcur⟩
    · rw [if_neg hc]
      apply ih _ words _ hwords
      intro d hd
      simp only [List.mem_append, List.mem_singleton] at hd
      rcases hd with hd | hd
      · exact hcur d hd
      · subst hd
        exact not_or.mp hc

theorem splitWords_no_separator (text : List Char) :
    ∀ w ∈ splitWords text, w ≠ [] ∧ ∀ c ∈ w, c ≠ ' ' ∧ c ≠ '\n' :=
  splitLoop_no_separator text [] [] (by simp) (by simp)

theorem wrapLoop_eq_packWords {W : Type} [Add W] [LT W] [DecidableRel (fun a b : W => a < b)]
    (measureString : List Char → W) (containsCharacter : Char → Bool)
    (maxLineWidth spaceWidth : W) (words : List (List Char)) (lineWidth : W)
    (wrappedText : List Char) :
    wrapLoop measureString containsCharacter maxLineWidth spaceWidth words lineWidth wrappedText
      = wrappedText ++ packWords maxLineWidth spaceWidth
          (words.map (fun w => (w.map (substituteGlyph containsCharacter),
            measureString (w.map (substituteGlyph containsCharacter))))) lineWidth := by
  induction words generalizing lineWidth wrappedText with
  | nil => simp [wrapLoop, packWords]
  | cons word rest ih =>
    simp only [wrapLoop, List.map_cons, packWords, replaceUnsupported_eq_map]
    split
    · rw [ih]; simp
    · rw [ih]; simp

theorem foldl_greedyStep_eq {W : Type} [Add W] [LT W] [DecidableRel (fun a b : W => a < b)]
    (measure : List Char → W) (maxWidth spaceWidth : W) (words : List (List Char))
    (state : List Char × W) :
    (words.foldl (greedyStep measure maxWidth spaceWidth) state).1
      = state.1 ++ packWords maxWidth spaceWidth (words.map (fun w => (w, measure w))) state.2 := by
  induction words generalizing state with
  | nil => simp [packWords]
  | cons word rest ih =>
    simp only [List.foldl_cons, List.map_cons, packWords]
    rw [ih]
    unfold greedyStep
    split <;> simp

theorem WrapText_eq_packWords {W : Type} [Zero W] [Add W] [LT W]
    [DecidableRel (fun a b : W => a < b)]
    (text : List Char) (measureString : List Char → W) (containsCharacter : Char → Bool)
    (maxLineWidth : W) :
    WrapText text measureString containsCharacter maxLineWidth
      = packWords maxLineWidth (measureString [' '])
          ((splitWords text).map (fun w => (w.map (substituteGlyph containsCharacter),
            measureString (w.map (substituteGlyph containsCharacter))))) 0 := by
  unfold WrapText
  rw [wrapLoop_eq_packWords]
  simp

/-- C5: for every text, measure function and maximal width, over any width arithmetic,
the output of `WrapText` is the output of the greedy reference of the spec; and the test
is strict: when `lineWidth + wordWidth` equals the maximal width exactly, the loop puts
the word on a new line and resets `lineWidth` to `wordWidth + spaceWidth`. -/
theorem C5_WrapText_greedy {W : Type} [Zero W] [Add W] [LT W]
    [DecidableRel (fun a b : W => a < b)]
    (text : List Char) (measureString : List Char → W) (containsCharacter : Char → Bool)
    (maxLineWidth : W) :
    WrapText text measureString containsCharacter maxLineWidth
      = greedyReference text measureString containsCharacter maxLineWidth ∧
    ((∀ a : W, ¬ a < a) → ∀ (word : List Char) (rest : List (List Char)) (lineWidth : W)
        (wrappedText : List Char),
      lineWidth + measureString (replaceUnsupported containsCharacter word) = maxLineWidth →
      wrapLoop measureString containsCharacter maxLineWidth (measureString [' '])
          (word :: rest) lineWidth wrappedText
        = wrapLoop measureString containsCharacter maxLineWidth (measureString [' ']) rest
            (measureString (replaceUnsupported containsCharacter word) + measureString [' '])
            (wrappedText ++ (['\n'] ++ replaceUnsupported containsCharacter word ++ [' ']))) := by
  constructor
  · rw [WrapText_eq_packWords]
    unfold greedyReference
    rw [foldl_greedyStep_eq, ← splitWords_eq_specWords]
    simp [List.map_map, Function.comp_def]
  · intro hirr word rest lineWidth wrappedText hfull
    have hnot : ¬ (lineWidth + measureString (replaceUnsupported containsCharacter word)
        < maxLineWidth) := by
      rw [hfull]; exact hirr _
    simp only [wrapLoop]
    rw [if_neg hnot]

/-- C5, on "ab cd" with widths counted in characters and a maximal width of 5: the second
word makes the line exactly 5 wide and goes to a new line. -/
theorem C5_WrapText_greedy_witness :
    WrapText "ab cd".toList (fun w => w.length) (fun _ => true) 5 = "ab \ncd ".toList ∧
    greedyReference "ab cd".toList (fun w => w.length) (fun _ => true) 5 = "ab \ncd ".toList ∧
    wrapLoop (fun w => w.length) (fun _ => true) 5 1 ["cd".toList] 3 "ab ".toList
      = "ab \ncd ".toList :=
  have h := C5_WrapText_greedy "ab cd".toList (fun w => w.length) (fun _ => true) 5
  ⟨by decide, h.1 ▸ (by decide),
    h.2 (fun a => Nat.lt_irrefl a) "cd".toList [] 3 "ab ".toList (by decide)⟩

theorem packWords_fitsAll {W : Type} [Add W] [LT W] [DecidableRel (fun a b : W => a < b)]
    (maxWidth spaceWidth : W) (words : List (List Char × W)) (lineWidth : W)
    (hfit : fitsAll maxWidth spaceWidth lineWidth (words.map Prod.snd) = true) :
    packWords maxWidth spaceWidth words lineWidth
      = (words.map (fun p => p.1 ++ [' '])).flatten := by
  induction words generalizing lineWidth with
  | nil => simp [packWords]
  | cons p rest ih =>
    obtain ⟨word, width⟩ := p
    simp only [List.map_cons, fitsAll, Bool.and_eq_true, decide_eq_true_eq] at hfit
    rw [packWords, if_pos hfit.1, ih _ hfit.2]
    simp

theorem packWords_breaksAll {W : Type} [Add W] [LT W] [DecidableRel (fun a b : W => a < b)]
    (maxWidth spaceWidth : W) (words : List (List Char × W)) (lineWidth : W)
    (hbreak : breaksAll maxWidth spaceWidth lineWidth (words.map Prod.snd) = true) :
    packWords maxWidth spaceWidth words lineWidth
      = (words.map (fun p => '\n' :: (p.1 ++ [' ']))).flatten := by
  induction words generalizing lineWidth with
  | nil => simp [packWords]
  | cons p rest ih =>
    obtain ⟨word, width⟩ := p
    simp only [List.map_cons, breaksAll, Bool.and_eq_true, Bool.not_eq_true',
      decide_eq_false_iff_not] at hbreak
    rw [packWords, if_neg hbreak.1, ih _ hbreak.2]
    simp

theorem count_newline_word (w : List Char) (h : ∀ c ∈ w, c ≠ ' ' ∧ c ≠ '\n') :
    (w ++ [' ']).count '\n' = 0 := by
  rw [List.count_eq_zero]
  intro hmem
  simp only [List.mem_append, List.mem_singleton] at hmem
  rcases hmem with hmem | hmem
  · exact (h _ hmem).2 rfl
  · exact absurd hmem (by decide)

theorem count_newline_flatten (words : List (List Char))
    (h : ∀ w ∈ words, ∀ c ∈ w, c ≠ ' ' ∧ c ≠ '\n') :
    ((words.map (fun w => w ++ [' '])).flatten).count '\n' = 0 := by
  induction words with
  | nil => rfl
  | cons w rest ih =>
    simp only [List.map_cons, List.flatten_cons, List.count_append] at *
    have h1 := count_newline_word w (h w (by simp))
    simp only [List.count_append] at h1
    rw [h1, ih (fun w hw => h w (List.mem_cons_of_mem _ hw))]

theorem count_newline_breaks (words : List (List Char))
    (h : ∀ w ∈ words, ∀ c ∈ w, c ≠ ' ' ∧ c ≠ '\n') :
    ((words.map (fun w => '\n' :: (w ++ [' ']))).flatten).count '\n' = words.length := by
  induction words with
  | nil => rfl
  | cons w rest ih =>
    have h1 := count_newline_word w (h w (by simp))
    simp only [List.map_cons, List.flatten_cons, List.count_append, List.cons_append,
      List.count_cons_self, List.length_cons]
    simp only [List.count_append] at h1
    rw [ih (fun w hw => h w (List.mem_cons_of_mem _ hw))]
    omega

theorem substituted_no_separator (containsCharacter : Char → Bool) (w : List Char)
    (h : ∀ c ∈ w, c ≠ ' ' ∧ c ≠ '\n') :
    ∀ c ∈ w.map (substituteGlyph containsCharacter), c ≠ ' ' ∧ c ≠ '\n' := by
  intro c hc
  obtain ⟨d, hd, rfl⟩ := List.mem_map.mp hc
  unfold substituteGlyph
  split
  · exact h d hd
  · exact ⟨by decide, by decide⟩

theorem intercalate_newline (a : List Char) (rest : List (List Char)) :
    ['\n'].intercalate (a :: rest) = a ++ (rest.map (fun l => '\n' :: l)).flatten := by
  induction rest generalizing a with
  | nil => simp [List.intercalate]
  | cons b rest ih =>
    have h := ih b
    simp only [List.intercalate, List.intersperse, List.flatten_cons, List.map_cons,
      List.singleton_append] at h ⊢
    rw [h]
    simp

theorem wordWidths_eq (text : List Char) {W : Type} (measureString : List Char → W)
    (containsCharacter : Char → Bool) :
    wordWidths text measureString containsCharacter
      = ((splitWords text).map (fun w => (w.map (substituteGlyph containsCharacter),
            measureString (w.map (substituteGlyph containsCharacter))))).map Prod.snd := by
  unfold wordWidths
  simp [List.map_map, Function.comp_def, replaceUnsupported_eq_map]

/-- C6 (counterexample): with widths counted in characters and a maximal width of 3, no
two consecutive words of "The quick brown fox" fit on one line, yet the output
starts with a line break and has 5 lines, not 4. -/
theorem C6_leading_break_five_lines :
    (splitWords "The quick brown fox".toList).length = 4 ∧
    List.Chain' (fun a b : Nat => ¬ (a + 1 + b < 3))
      (wordWidths "The quick brown fox".toList (fun w => w.length) (fun _ => true)) ∧
    WrapText "The quick brown fox".toList (fun w => w.length) (fun _ => true) 3
      = "\nThe \nquick \nbrown \nfox ".toList ∧
    lineCount (WrapText "The quick brown fox".toList (fun w => w.length) (fun _ => true) 3)
      = 5 := by
  have hw : wordWidths "The quick brown fox".toList (fun w => w.length) (fun _ => true)
      = [3, 5, 5, 3] := by decide
  refine ⟨by decide, ?_, by decide, by decide⟩
  rw [hw]
  simp

/-- C6 (amended): for a text of `n ≥ 1` words, over any width arithmetic, the output of
`WrapText` has 1 line, all words in order each followed by one space, when every word
passes the fit test of the code on the running line width; and it has exactly `n` lines,
the `k`-th line being the `k`-th glyph-substituted word followed by one space, when the
first word passes the fit test on the empty line and every later word fails it against
the line of the word before it. -/
theorem C6_line_count {W : Type} [Zero W] [Add W] [LT W]
    [DecidableRel (fun a b : W => a < b)]
    (text : List Char) (measureString : List Char → W) (containsCharacter : Char → Bool)
    (maxLineWidth : W) (hwords : splitWords text ≠ []) :
    (fitsAll maxLineWidth (measureString [' ']) 0
        (wordWidths text measureString containsCharacter) = true →
      lineCount (WrapText text measureString containsCharacter maxLineWidth) = 1 ∧
      WrapText text measureString containsCharacter maxLineWidth
        = ((splitWords text).map
            (fun w => replaceUnsupported containsCharacter w ++ [' '])).flatten) ∧
    (onePerLine maxLineWidth (measureString [' '])
        (wordWidths text measureString containsCharacter) = true →
      lineCount (WrapText text measureString containsCharacter maxLineWidth)
        = (splitWords text).length ∧
      (WrapText text measureString containsCharacter maxLineWidth).splitOn '\n'
        = (splitWords text).map (fun w => replaceUnsupported containsCharacter w ++ [' '])) := by
  have hsep := splitWords_no_separator text
  have hsub : ∀ w ∈ (splitWords text).map (List.map (substituteGlyph containsCharacter)),
      ∀ c ∈ w, c ≠ ' ' ∧ c ≠ '\n' := by
    intro w hw
    obtain ⟨v, hv, rfl⟩ := List.mem_map.mp hw
    exact substituted_no_separator containsCharacter v (hsep v hv).2
  constructor
  · intro hfit
    rw [wordWidths_eq] at hfit
    rw [WrapText_eq_packWords, packWords_fitsAll maxLineWidth _ _ 0 hfit]
    have h := count_newline_flatten _ hsub
    simp only [List.map_map, Function.comp_def] at h ⊢
    refine ⟨?_, ?_⟩
    · unfold lineCount
      rw [h]
    · simp [replaceUnsupported_eq_map]
  · intro hone
    rw [wordWidths_eq] at hone
    rw [WrapText_eq_packWords]
    cases hsplit : splitWords text with
    | nil => exact absurd hsplit hwords
    | cons w rest =>
      rw [hsplit] at hone hsub hsep
      simp only [List.map_cons, onePerLine, Bool.and_eq_true, decide_eq_true_eq] at hone
      have hout : packWords maxLineWidth (measureString [' '])
          ((w :: rest).map (fun w => (w.map (substituteGlyph containsCharacter),
            measureString (w.map (substituteGlyph containsCharacter))))) 0
          = ['\n'].intercalate ((w :: rest).map
              (fun w => w.map (substituteGlyph containsCharacter) ++ [' '])) := by
        rw [List.map_cons, List.map_cons, intercalate_newline, packWords,
          if_pos hone.1, packWords_breaksAll maxLineWidth _ _ _ hone.2]
        simp [List.map_map, Function.comp_def]
      rw [hout]
      constructor
      · rw [List.map_cons, intercalate_newline]
        unfold lineCount
        have h1 := count_newline_word _
          (hsub (w.map (substituteGlyph containsCharacter)) (by simp))
        have h2 := count_newline_breaks
          (rest.map (List.map (substituteGlyph containsCharacter)))
          (fun v hv => hsub v (by
            rw [List.map_cons]
            exact List.mem_cons_of_mem _ hv))
        simp only [List.map_map, Function.comp_def, List.length_map] at h2
        simp only [List.map_map, Function.comp_def, List.count_append, List.length_cons] at h1 ⊢
        rw [h2]
        omega
      · rw [List.splitOn_intercalate]
        · simp [replaceUnsupported_eq_map]
        · intro l hl
          obtain ⟨v, hv, rfl⟩ := List.mem_map.mp hl
          intro hmem
          simp only [List.mem_append, List.mem_singleton] at hmem
          rcases hmem with hmem | hmem
          · exact (hsub _ (List.mem_map_of_mem _ hv) _ hmem).2 rfl
          · exact absurd hmem (by decide)
        · simp

/-- C6 (amended), first on "The quick brown fox" with widths counted in characters: 1
line for a maximal width of 100, and 4 lines, one word each, for a maximal width of 6;
then on "a b" in binary32 arithmetic with every width the `float` nearest to 0.1 and a
maximal width the `float` nearest to 0.3: the running sum `0.2f + 0.1f` rounds to the
maximal width, the test fails and the output has 2 lines. -/
theorem C6_line_count_witness :
    lineCount (WrapText "The quick brown fox".toList (fun w => w.length) (fun _ => true) 100)
      = 1 ∧
    lineCount (WrapText "The quick brown fox".toList (fun w => w.length) (fun _ => true) 6)
      = 4 ∧
    (WrapText "The quick brown fox".toList (fun w => w.length) (fun _ => true) 6).splitOn '\n'
      = ["The ".toList, "quick ".toList, "brown ".toList, "fox ".toList] ∧
    lineCount (WrapText "a b".toList (fun _ => floatTenth) (fun _ => true) floatThreeTenths)
      = 2 :=
  have h1 := (C6_line_count "The quick brown fox".toList (fun w => w.length) (fun _ => true)
    (100 : Nat) (by decide)).1 (by decide)
  have h2 := (C6_line_count "The quick brown fox".toList (fun w => w.length) (fun _ => true)
    (6 : Nat) (by decide)).2 (by decide)
  have h3 := (C6_line_count "a b".toList (fun _ => floatTenth) (fun _ => true)
    floatThreeTenths (by decide)).2 binary32_onePerLine_example
  ⟨h1.1, h2.1, h2.2, h3.1⟩

theorem mem_packWords {W : Type} [Add W] [LT W] [DecidableRel (fun a b : W => a < b)]
    (maxWidth spaceWidth : W) (words : List (List Char × W)) (lineWidth : W) (c : Char)
    (hc : c ∈ packWords maxWidth spaceWidth words lineWidth) :
    c = ' ' ∨ c = '\n' ∨ ∃ p ∈ words, c ∈ p.1 := by
  induction words generalizing lineWidth with
  | nil => simp [packWords] at hc
  | cons p rest ih =>
    obtain ⟨word, width⟩ := p
    unfold packWords at hc
    split at hc
    · simp only [List.append_assoc, List.mem_append, List.mem_singleton] at hc
      rcases hc with hc | hc | hc
      · exact Or.inr (Or.inr ⟨(word, width), by simp, hc⟩)
      · exact Or.inl hc
      · rcases ih _ hc with h | h | ⟨q, hq, hcq⟩
        · exact Or.inl h
        · exact Or.inr (Or.inl h)
        · exact Or.inr (Or.inr ⟨q, List.mem_cons_of_mem _ hq, hcq⟩)
    · simp only [List.append_assoc, List.mem_append, List.mem_singleton] at hc
      rcases hc with hc | hc | hc | hc
      · exact Or.inr (Or.inl hc)
      · exact Or.inr (Or.inr ⟨(word, width), by simp, hc⟩)
      · exact Or.inl hc
      · rcases ih _ hc with h | h | ⟨q, hq, hcq⟩
        · exact Or.inl h
        · exact Or.inr (Or.inl h)
        · exact Or.inr (Or.inr ⟨q, List.mem_cons_of_mem _ hq, hcq⟩)

/-- C7: in `WrapText` every character of a word that the font lacks becomes `?` and every
character it contains is kept (the substitution loop is the character-wise map
`substituteGlyph`); every character of the output is a space, a line break, `?` or a
character the font contains; and the output is the greedy packing of the substituted
words, each with the width `measureString` gives for the substituted word. -/
theorem C7_glyph_substitution {W : Type} [Zero W] [Add W] [LT W]
    [DecidableRel (fun a b : W => a < b)]
    (text : List Char) (measureString : List Char → W) (containsCharacter : Char → Bool)
    (maxLineWidth : W) :
    (∀ word : List Char, replaceUnsupported containsCharacter word
      = word.map (fun c => if containsCharacter c then c else '?')) ∧
    (∀ c ∈ WrapText text measureString containsCharacter maxLineWidth,
      c = ' ' ∨ c = '\n' ∨ c = '?' ∨ containsCharacter c = true) ∧
    WrapText text measureString containsCharacter maxLineWidth
      = packWords maxLineWidth (measureString [' '])
          ((splitWords text).map (fun w =>
            (w.map (fun c => if containsCharacter c then c else '?'),
             measureString (w.map (fun c => if containsCharacter c then c else '?'))))) 0 := by
  refine ⟨fun word => replaceUnsupported_eq_map containsCharacter word, ?_,
    WrapText_eq_packWords text measureString containsCharacter maxLineWidth⟩
  intro c hc
  rw [WrapText_eq_packWords] at hc
  rcases mem_packWords _ _ _ _ c hc with h | h | ⟨p, hp, hcp⟩
  · exact Or.inl h
  · exact Or.inr (Or.inl h)
  · obtain ⟨w, _, rfl⟩ := List.mem_map.mp hp
    obtain ⟨d, _, rfl⟩ := List.mem_map.mp hcp
    unfold substituteGlyph
    by_cases hd : containsCharacter d = true
    · rw [if_pos hd]; exact Or.inr (Or.inr (Or.inr hd))
    · rw [if_neg hd]; exact Or.inr (Or.inr (Or.inl rfl))

/-- C7, on "aXb X" with a font lacking `X` and widths counted in characters. -/
theorem C7_glyph_substitution_witness :
    WrapText "aXb X".toList (fun w => w.length) (fun c => c != 'X') 10 = "a?b ? ".toList ∧
    replaceUnsupported (fun c => c != 'X') "aXb".toList = "a?b".toList ∧
    ('?' = ' ' ∨ '?' = '\n' ∨ '?' = '?' ∨ ('?' != 'X') = true) :=
  have h := C7_glyph_substitution "aXb X".toList (fun w => w.length) (fun c => c != 'X') 10
  ⟨h.2.2.trans (by decide), (h.1 "aXb".toList).trans (by decide), h.2.1 '?' (by decide)⟩

/-! ## Text wrapping: the words survive -/

theorem splitLoop_word (w rest currentWord : List Char) (words : List (List Char))
    (hw : ∀ c ∈ w, c ≠ ' ' ∧ c ≠ '\n') :
    splitLoop (w ++ rest) currentWord words = splitLoop rest (currentWord ++ w) words := by
  induction w generalizing currentWord with
  | nil => simp
  | cons c w ih =>
    have hc : ¬ (c = ' ' ∨ c = '\n') := by
      have := hw c (by simp)
      exact not_or.mpr this
    rw [List.cons_append, splitLoop, if_neg hc,
      ih _ (fun d hd => hw d (List.mem_cons_of_mem _ hd))]
    simp

theorem splitLoop_space (rest w : List Char) (words : List (List Char)) (hw : w ≠ []) :
    splitLoop (' ' :: rest) w words = splitLoop rest [] (words ++ [w]) := by
  have hlen : w.length > 0 := List.length_pos.mpr hw
  rw [splitLoop, if_pos (Or.inl rfl), if_pos hlen]

theorem splitLoop_newline (rest : List Char) (words : List (List Char)) :
    splitLoop ('\n' :: rest) [] words = splitLoop rest [] words := by
  rw [splitLoop, if_pos (Or.inr rfl)]
  simp

theorem splitLoop_packWords {W : Type} [Add W] [LT W] [DecidableRel (fun a b : W => a < b)]
    (maxWidth spaceWidth : W) (pairs : List (List Char × W)) (lineWidth : W)
    (words : List (List Char))
    (hp : ∀ p ∈ pairs, p.1 ≠ [] ∧ ∀ c ∈ p.1, c ≠ ' ' ∧ c ≠ '\n') :
    splitLoop (packWords maxWidth spaceWidth pairs lineWidth) [] words
      = words ++ pairs.map Prod.fst := by
  induction pairs generalizing lineWidth words with
  | nil => simp [packWords, splitLoop]
  | cons p rest ih =>
    obtain ⟨word, width⟩ := p
    have hword := hp (word, width) (by simp)
    have hrest : ∀ p ∈ rest, p.1 ≠ [] ∧ ∀ c ∈ p.1, c ≠ ' ' ∧ c ≠ '\n' :=
      fun p hmem => hp p (List.mem_cons_of_mem _ hmem)
    unfold packWords
    split
    · rw [List.append_assoc, splitLoop_word _ _ _ _ hword.2, List.nil_append,
        List.singleton_append, splitLoop_space _ _ _ hword.1, ih _ _ hrest]
      simp
    · rw [List.append_assoc, List.append_assoc, List.singleton_append, splitLoop_newline,
        splitLoop_word _ _ _ _ hword.2, List.nil_append,
        List.singleton_append, splitLoop_space _ _ _ hword.1, ih _ _ hrest]
      simp

theorem packWords_pieces {W : Type} [Add W] [LT W] [DecidableRel (fun a b : W => a < b)]
    (maxWidth spaceWidth : W) (pairs : List (List Char × W)) (lineWidth : W) :
    ∃ breaks : List Bool, breaks.length = pairs.length ∧
      packWords maxWidth spaceWidth pairs lineWidth
        = (List.zipWith wrappedPiece breaks (pairs.map Prod.fst)).flatten := by
  induction pairs generalizing lineWidth with
  | nil => exact ⟨[], rfl, by simp [packWords]⟩
  | cons p rest ih =>
    obtain ⟨word, width⟩ := p
    unfold packWords
    split
    · obtain ⟨breaks, hlen, heq⟩ := ih (lineWidth + (width + spaceWidth))
      refine ⟨false :: breaks, by simp [hlen], ?_⟩
      rw [heq]
      simp [wrappedPiece]
    · obtain ⟨breaks, hlen, heq⟩ := ih (width + spaceWidth)
      refine ⟨true :: breaks, by simp [hlen], ?_⟩
      rw [heq]
      simp [wrappedPiece]

/-- C12: `WrapText` neither drops, splits, merges nor reorders words.  Splitting its
output at spaces and line breaks gives exactly the words of the text (its maximal runs of
characters other than space and line break, which are non-empty and hold no separator)
after glyph substitution, in order; the output is the concatenation, word by word, of an
optional line break, the substituted word and exactly one space; and a text with no word
gives the empty output. -/
theorem C12_words_preserved {W : Type} [Zero W] [Add W] [LT W]
    [DecidableRel (fun a b : W => a < b)]
    (text : List Char) (measureString : List Char → W) (containsCharacter : Char → Bool)
    (maxLineWidth : W) :
    specWords (WrapText text measureString containsCharacter maxLineWidth)
      = (specWords text).map (List.map (substituteGlyph containsCharacter)) ∧
    (∃ breaks : List Bool, breaks.length = (specWords text).length ∧
      WrapText text measureString containsCharacter maxLineWidth
        = (List.zipWith wrappedPiece breaks
            ((specWords text).map (List.map (substituteGlyph containsCharacter)))).flatten) ∧
    (∀ w ∈ specWords text, w ≠ [] ∧ ∀ c ∈ w, c ≠ ' ' ∧ c ≠ '\n') ∧
    (specWords text = [] →
      WrapText text measureString containsCharacter maxLineWidth = []) := by
  have hsep := splitWords_no_separator text
  have hwords := splitWords_eq_specWords text
  have hout := WrapText_eq_packWords text measureString containsCharacter maxLineWidth
  have hfst : ((splitWords text).map (fun w =>
      (w.map (substituteGlyph containsCharacter),
        measureString (w.map (substituteGlyph containsCharacter))))).map Prod.fst
      = (splitWords text).map (List.map (substituteGlyph containsCharacter)) := by
    simp [List.map_map, Function.comp_def]
  refine ⟨?_, ?_, ?_, ?_⟩
  · rw [← splitWords_eq_specWords, ← hwords, hout]
    have h := splitLoop_packWords maxLineWidth (measureString [' '])
      ((splitWords text).map (fun w =>
        (w.map (substituteGlyph containsCharacter),
          measureString (w.map (substituteGlyph containsCharacter))))) 0 [] (by
        intro p hp
        obtain ⟨w, hw, rfl⟩ := List.mem_map.mp hp
        refine ⟨?_, substituted_no_separator containsCharacter w (hsep w hw).2⟩
        intro hnil
        exact (hsep w hw).1 (List.map_eq_nil_iff.mp hnil))
    rw [hfst, List.nil_append] at h
    exact h
  · obtain ⟨breaks, hlen, heq⟩ := packWords_pieces maxLineWidth (measureString [' '])
      ((splitWords text).map (fun w =>
        (w.map (substituteGlyph containsCharacter),
          measureString (w.map (substituteGlyph containsCharacter))))) 0
    refine ⟨breaks, ?_, ?_⟩
    · rw [hlen, List.length_map, hwords]
    · rw [hout, heq, hfst, hwords]
  · rw [← hwords]
    exact hsep
  · intro hnone
    rw [hout, hwords, hnone]
    rfl

/-- C12, on a text with doubled separators and a glyph the font lacks, wrapped at a width
of 6 characters, and on a text of separators only. -/
theorem C12_words_preserved_witness :
    specWords (WrapText "The  quick\nbrown fox ".toList (fun w => w.length)
        (fun c => c != 'q') 6)
      = ["The".toList, "?uick".toList, "brown".toList, "fox".toList] ∧
    WrapText " \n ".toList (fun w => w.length) (fun c => c != 'q') 6 = [] :=
  have h1 := C12_words_preserved "The  quick\nbrown fox ".toList (fun w => w.length)
    (fun c => c != 'q') 6
  have h2 := C12_words_preserved " \n ".toList (fun w => w.length) (fun c => c != 'q') 6
  ⟨h1.1.trans (by decide), h2.2.2.2 (by decide)⟩

theorem mem_outlineBody {F : Type} [Add F] [Sub F] [NatCast F] (text : List Char)
    (x y scale : F) (offsetX offsetY : Nat) (op : DrawOp F)
    (h : op ∈ outlineBody text x y scale offsetX offsetY) :
    ∃ x1 y1, op = DrawOp.DrawString text x1 y1 Color.Black scale := by
  simp only [outlineBody, List.mem_cons, List.mem_singleton, List.not_mem_nil, or_false] at h
  rcases h with h | h | h | h | h | h | h | h <;> exact ⟨_, _, h⟩

theorem mem_outlineLoopY {F : Type} [Add F] [Sub F] [NatCast F] (text : List Char)
    (x y scale : F) (offsetX offsetY : Nat) (op : DrawOp F)
    (h : op ∈ outlineLoopY text x y scale offsetX offsetY) :
    ∃ x1 y1, op = DrawOp.DrawString text x1 y1 Color.Black scale := by
  induction offsetY with
  | zero => simp [outlineLoopY] at h
  | succ n ih =>
    unfold outlineLoopY at h
    rcases List.mem_append.mp h with h | h
    · exact mem_outlineBody _ _ _ _ _ _ _ h
    · exact ih h

theorem mem_outlineLoopX {F : Type} [Add F] [Sub F] [NatCast F] (text : List Char)
    (x y scale : F) (offsetX : Nat) (op : DrawOp F)
    (h : op ∈ outlineLoopX text x y scale offsetX) :
    ∃ x1 y1, op = DrawOp.DrawString text x1 y1 Color.Black scale := by
  induction offsetX with
  | zero => simp [outlineLoopX] at h
  | succ n ih =>
    unfold outlineLoopX at h
    rcases List.mem_append.mp h with h | h
    · exact mem_outlineLoopY _ _ _ _ _ _ _ h
    · exact ih h

theorem mem_DrawOutlinedString {F : Type} [Add F] [Sub F] [NatCast F] (message : List Char)
    (x y : F) (color : Color) (scale : F) (op : DrawOp F)
    (h : op ∈ DrawOutlinedString message x y color scale) :
    ∃ x1 y1 color1, op = DrawOp.DrawString message x1 y1 color1 scale := by
  unfold DrawOutlinedString at h
  rcases List.mem_append.mp h with h | h
  · obtain ⟨x1, y1, h1⟩ := mem_outlineLoopX _ _ _ _ _ _ h
    exact ⟨_, _, _, h1⟩
  · exact ⟨_, _, _, List.mem_singleton.mp h⟩

theorem mem_drawToastsLoop {F : Type} (toasts : List ToastInfo) (counter : Int)
    (op : DrawOp F) (h : op ∈ drawToastsLoop toasts counter) :
    ∃ toast k, op = DrawOp.DrawToast toast k := by
  induction toasts generalizing counter with
  | nil => simp [drawToastsLoop] at h
  | cons t rest ih =>
    unfold drawToastsLoop at h
    split at h
    · rcases List.mem_cons.mp h with h | h
      · exact ⟨_, _, h⟩
      · exact ih _ h
    · simp at h

theorem fpsString_ne_paused (fps : Int) : fpsString fps ≠ "PAUSED".toList := by
  intro h
  unfold fpsString at h
  have h1 : "FPS: ".toList = ['F', 'P', 'S', ':', ' '] := by decide
  have h2 : "PAUSED".toList = ['P', 'A', 'U', 'S', 'E', 'D'] := by decide
  rw [h1, h2] at h
  simp at h

theorem Render_ops {F D : Type} [Add F] [Sub F] [Div F] [NatCast F] [OfScientific F]
    [LT D] [DecidableRel (fun a b : D => a < b)] [Div D] [NatCast D] [IntCast D]
    (decl : Declarations) (env : RenderEnv D) (r : Renderer)
    (hc : (r.frameChanged || env.paused || !r.toasts.isEmpty) = true) :
    ∃ (snapshot : List Nat) (fps : Int) (x y scale x2 y2 scale2 : F),
      (r.Render (F := F) decl env).2 =
        [DrawOp.ClearRenderTargetView, DrawOp.SpriteBatchBegin, DrawOp.DrawScreen snapshot] ++
          (if env.paused = true then
            DrawOp.DrawPauseShade ::
              DrawOutlinedString "PAUSED".toList x y Color.AntiqueWhite scale
           else if env.showFPS = true then
            DrawOutlinedString (fpsString fps) x2 y2 Color.AntiqueWhite scale2
           else []) ++
          drawToastsLoop (removeIf env.isToastExpired r.toasts) 0 ++
          [DrawOp.SpriteBatchEnd, DrawOp.Present] ∧
      (r.Render (F := F) decl env).1.toasts = removeIf env.isToastExpired r.toasts := by
  rw [Render_of_redraw decl env r hc]
  have hkeep : ∀ q : Renderer, (q.updateFPS decl env).toasts = q.toasts := by
    intro q
    unfold Renderer.updateFPS
    split <;> rfl
  refine ⟨(({ r with frameChanged := false } : Renderer).DrawNESScreen
      (F := F)).1.ppuOutputSecondaryBuffer.bytes,
    ((({ r with frameChanged := false } : Renderer).DrawNESScreen (F := F)).1.updateFPS
      decl env).currentFPS,
    (r.hdScreenWidth : F) / ((2 : Nat) : F) - ((145 : Nat) : F),
    (r.hdScreenHeight : F) / ((2 : Nat) : F) - ((47 : Nat) : F), (4.5 : F),
    (((256 * 4 - 80 : Nat)) : F), ((13 : Nat) : F), (1.0 : F), ?_, ?_⟩
  · by_cases hp : env.paused = true
    · simp only [Renderer.drawOverlay, if_pos hp, Renderer.DrawPauseScreen,
        Renderer.DrawNESScreen, Renderer.DrawToasts, Renderer.RemoveOldToasts,
        Renderer.acquireForRender]
      rfl
    · by_cases hs : env.showFPS = true
      · simp only [Renderer.drawOverlay, if_neg hp, if_pos hs, Renderer.DrawNESScreen,
          Renderer.DrawToasts, Renderer.RemoveOldToasts, hkeep, Renderer.acquireForRender]
        rfl
      · simp only [Renderer.drawOverlay, if_neg hp, if_neg hs, Renderer.DrawNESScreen,
          Renderer.DrawToasts, Renderer.RemoveOldToasts, Renderer.acquireForRender]
        rfl
  · by_cases hp : env.paused = true
    · simp only [Renderer.drawOverlay, if_pos hp, Renderer.DrawNESScreen, Renderer.DrawToasts,
        Renderer.RemoveOldToasts, Renderer.acquireForRender]
    · by_cases hs : env.showFPS = true
      · simp only [Renderer.drawOverlay, if_neg hp, if_pos hs, Renderer.DrawNESScreen,
          Renderer.DrawToasts, Renderer.RemoveOldToasts, hkeep, Renderer.acquireForRender]
      · simp only [Renderer.drawOverlay, if_neg hp, if_neg hs, Renderer.DrawNESScreen,
          Renderer.DrawToasts, Renderer.RemoveOldToasts, Renderer.acquireForRender]

theorem mem_render_ops {F : Type} (snapshot : List Nat) (overlay toastOps : List (DrawOp F))
    (op : DrawOp F) :
    op ∈ [DrawOp.ClearRenderTargetView, DrawOp.SpriteBatchBegin, DrawOp.DrawScreen snapshot] ++
        overlay ++ toastOps ++ [DrawOp.SpriteBatchEnd, DrawOp.Present] ↔
      (op ∈ [DrawOp.ClearRenderTargetView, DrawOp.SpriteBatchBegin,
          DrawOp.DrawScreen snapshot, DrawOp.SpriteBatchEnd, DrawOp.Present] ∨
        op ∈ overlay ∨ op ∈ toastOps) := by
  simp only [List.mem_append, List.mem_cons, List.mem_singleton, List.not_mem_nil, or_false]
  tauto

/-- C10: in every redraw of `Render` the calls are, in order: the clear and the batch
begin, the NES screen, the overlay, the `DrawToast` calls of `DrawToasts` on the swept
queue, the batch end and the present.  The overlay holds only the pause shade and text
draws: the pause shade is drawn exactly when paused, the FPS string exactly when not
paused with FPS display on, never both; the toast queue is swept and its toasts drawn in
every redraw, whatever the pause state. -/
theorem C10_overlay_exclusive_toasts_always {F D : Type} [Add F] [Sub F] [Div F] [NatCast F]
    [OfScientific F] [LT D] [DecidableRel (fun a b : D => a < b)] [Div D] [NatCast D]
    [IntCast D] (decl : Declarations) (env : RenderEnv D) (r : Renderer)
    (hredraw : r.frameChanged = true ∨ env.paused = true ∨ r.toasts ≠ []) :
    (∃ snapshot overlay,
      (r.Render (F := F) decl env).2 =
        [DrawOp.ClearRenderTargetView, DrawOp.SpriteBatchBegin, DrawOp.DrawScreen snapshot] ++
          overlay ++ drawToastsLoop (removeIf env.isToastExpired r.toasts) 0 ++
          [DrawOp.SpriteBatchEnd, DrawOp.Present] ∧
      (∀ op ∈ overlay, op = DrawOp.DrawPauseShade ∨
        ∃ text x y color scale, op = DrawOp.DrawString text x y color scale)) ∧
    (r.Render (F := F) decl env).1.toasts = removeIf env.isToastExpired r.toasts ∧
    (DrawOp.DrawPauseShade ∈ (r.Render (F := F) decl env).2 ↔ env.paused = true) ∧
    ((∃ fps x y color scale,
        DrawOp.DrawString (fpsString fps) x y color scale ∈ (r.Render (F := F) decl env).2) ↔
      (env.paused = false ∧ env.showFPS = true)) ∧
    ¬ (DrawOp.DrawPauseShade ∈ (r.Render (F := F) decl env).2 ∧
       ∃ fps x y color scale,
        DrawOp.DrawString (fpsString fps) x y color scale ∈ (r.Render (F := F) decl env).2) := by
  have hc := redraw_condition env.paused r hredraw
  obtain ⟨snapshot, fps, x, y, scale, x2, y2, scale2, hops, hqueue⟩ :=
    Render_ops (F := F) decl env r hc
  have htoasts : ∀ op ∈ drawToastsLoop (F := F) (removeIf env.isToastExpired r.toasts) 0,
      op ≠ DrawOp.DrawPauseShade ∧ ∀ text x y color scale,
        op ≠ DrawOp.DrawString text x y color scale := by
    intro op hop
    obtain ⟨t, k, rfl⟩ := mem_drawToastsLoop _ _ _ hop
    exact ⟨by simp, by simp⟩
  have hshade : DrawOp.DrawPauseShade ∈ (r.Render (F := F) decl env).2 ↔ env.paused = true := by
    rw [hops, mem_render_ops]
    constructor
    · rintro (h | h | h)
      · simp at h
      · by_cases hp : env.paused = true
        · exact hp
        · rw [if_neg hp] at h
          by_cases hs : env.showFPS = true
          · rw [if_pos hs] at h
            obtain ⟨_, _, _, h1⟩ := mem_DrawOutlinedString _ _ _ _ _ _ h
            simp at h1
          · rw [if_neg hs] at h
            simp at h
      · exact absurd rfl (htoasts _ h).1
    · intro hp
      rw [if_pos hp]
      exact Or.inr (Or.inl (List.mem_cons_self _ _))
  have hfps : (∃ fps x y color scale,
        DrawOp.DrawString (fpsString fps) x y color scale ∈ (r.Render (F := F) decl env).2) ↔
      (env.paused = false ∧ env.showFPS = true) := by
    rw [hops]
    constructor
    · rintro ⟨fps1, x1, y1, c1, s1, h⟩
      rw [mem_render_ops] at h
      rcases h with h | h | h
      · simp at h
      · by_cases hp : env.paused = true
        · rw [if_pos hp] at h
          rcases List.mem_cons.mp h with h | h
          · simp at h
          · obtain ⟨_, _, _, h1⟩ := mem_DrawOutlinedString _ _ _ _ _ _ h
            simp only [DrawOp.DrawString.injEq] at h1
            exact absurd h1.1 (fpsString_ne_paused fps1)
        · rw [if_neg hp] at h
          by_cases hs : env.showFPS = true
          · exact ⟨by simpa using hp, hs⟩
          · rw [if_neg hs] at h
            simp at h
      · exact absurd rfl ((htoasts _ h).2 _ _ _ _ _)
    · rintro ⟨hp, hs⟩
      refine ⟨fps, x2, y2, Color.AntiqueWhite, scale2, ?_⟩
      rw [mem_render_ops, if_neg (by simp [hp]), if_pos hs]
      refine Or.inr (Or.inl ?_)
      unfold DrawOutlinedString
      exact List.mem_append_right _ (List.mem_singleton.mpr rfl)
  refine ⟨⟨snapshot, _, hops, ?_⟩, hqueue, hshade, hfps, ?_⟩
  · intro op hop
    by_cases hp : env.paused = true
    · rw [if_pos hp] at hop
      rcases List.mem_cons.mp hop with h | h
      · exact Or.inl h
      · obtain ⟨_, _, _, h1⟩ := mem_DrawOutlinedString _ _ _ _ _ _ h
        exact Or.inr ⟨_, _, _, _, _, h1⟩
    · rw [if_neg hp] at hop
      by_cases hs : env.showFPS = true
      · rw [if_pos hs] at hop
        obtain ⟨_, _, _, h1⟩ := mem_DrawOutlinedString _ _ _ _ _ _ hop
        exact Or.inr ⟨_, _, _, _, _, h1⟩
      · rw [if_neg hs] at hop
        simp at hop
  · rintro ⟨h1, h2⟩
    have hp := hshade.mp h1
    have hq := (hfps.mp h2).1
    rw [hp] at hq
    exact absurd hq (by decide)

/-- C10, on a paused renderer holding one expired toast: the queue is swept although the
emulation is paused, the pause shade is drawn and no FPS string is. -/
theorem C10_overlay_exclusive_toasts_always_witness :
    (({ exampleRenderer with toasts := [exampleToast "old" 0] }).Render (F := ℚ) exampleDecl
        (exampleEnv true true 5000 5000 5000)).1.toasts = [] ∧
    DrawOp.DrawPauseShade ∈
      (({ exampleRenderer with toasts := [exampleToast "old" 0] }).Render (F := ℚ) exampleDecl
        (exampleEnv true true 5000 5000 5000)).2 :=
  have h := C10_overlay_exclusive_toasts_always (F := ℚ) exampleDecl
    (exampleEnv true true 5000 5000 5000)
    { exampleRenderer with toasts := [exampleToast "old" 0] } (Or.inr (Or.inl rfl))
  ⟨h.2.1.trans (by decide), h.2.2.1.mpr rfl⟩

/-! ## Outlined text: theorems -/

theorem outlinePositions_length {F : Type} [Add F] [Sub F] [NatCast F] (x y : F) :
    (outlinePositions x y).length = 32 := rfl

theorem DrawOutlinedString_eq {F : Type} [Add F] [Sub F] [NatCast F] (message : List Char)
    (x y : F) (color : Color) (scale : F) :
    DrawOutlinedString message x y color scale =
      (outlinePositions x y).map (fun p => DrawOp.DrawString message p.1 p.2
        Color.Black scale) ++ [DrawOp.DrawString message x y color scale] := rfl

/-- C11 (counterexample): for the message "A" at `(0, 0)` in antique white with scale 1,
with exact arithmetic on the coordinates, `DrawOutlinedString` issues 32 black draws, not
8, one of them at `(1, 1)`, which is none of the 8 ring positions around `(0, 0)`. -/
theorem C11_thirty_two_black_draws :
    ((DrawOutlinedString "A".toList (0 : ℚ) 0 Color.AntiqueWhite 1).filter
      DrawOp.isBlackText).length = 32 ∧
    (DrawOutlinedString "A".toList (0 : ℚ) 0 Color.AntiqueWhite 1).length = 33 ∧
    DrawOp.DrawString "A".toList (1 : ℚ) 1 Color.Black 1
      ∈ DrawOutlinedString "A".toList (0 : ℚ) 0 Color.AntiqueWhite 1 ∧
    ((1 : ℚ), (1 : ℚ)) ∉ ringPositions (0 : ℚ) 0 := by
  refine ⟨rfl, rfl, ?_, ?_⟩
  · rw [DrawOutlinedString_eq]
    simp [outlinePositions]
  · intro h
    simp only [ringPositions, List.mem_cons, List.mem_singleton, List.not_mem_nil, or_false,
      Prod.mk.injEq] at h
    norm_num at h

/-- C11 (amended): for every message, position `(x, y)`, colour and scale, in the code's
own `float` arithmetic, `DrawOutlinedString` issues 33 text draws of the message at the
given scale: first 32 in black, at the positions of `outlinePositions` in that order (for
each `dx` in 2, 1 and each `dy` in 2, 1: `(x +- dx, y +- dy)`, `(x +- dx, y)`,
`(x, y +- dy)`), which include the 8 ring positions at distance 2, and then exactly one in
the given colour at `(x, y)` as the last draw. -/
theorem C11_DrawOutlinedString_draws {F : Type} [Add F] [Sub F] [NatCast F]
    (message : List Char) (x y : F) (color : Color) (scale : F) :
    DrawOutlinedString message x y color scale =
      (outlinePositions x y).map (fun p => DrawOp.DrawString message p.1 p.2
        Color.Black scale) ++ [DrawOp.DrawString message x y color scale] ∧
    (outlinePositions x y).length = 32 ∧
    (DrawOutlinedString message x y color scale).length = 33 ∧
    ((DrawOutlinedString message x y color scale).take 32).all DrawOp.isBlackText = true ∧
    (DrawOutlinedString message x y color scale).getLast?
      = some (DrawOp.DrawString message x y color scale) ∧
    (∀ p ∈ ringPositions x y, p ∈ outlinePositions x y) := by
  have heq := DrawOutlinedString_eq message x y color scale
  have hlen := outlinePositions_length x y
  refine ⟨heq, hlen, ?_, ?_, ?_, ?_⟩
  · rw [heq, List.length_append, List.length_map, hlen]
    rfl
  · rw [heq, List.take_append_of_le_length (by rw [List.length_map, hlen]),
      List.take_of_length_le (by rw [List.length_map, hlen]), List.all_eq_true]
    intro op hop
    obtain ⟨d, _, rfl⟩ := List.mem_map.mp hop
    rfl
  · rw [heq, List.getLast?_append]
    rfl
  · intro p hp
    simp only [ringPositions, List.mem_cons, List.mem_singleton, List.not_mem_nil,
      or_false] at hp
    rcases hp with rfl | rfl | rfl | rfl | rfl | rfl | rfl | rfl <;>
      simp [outlinePositions]

/-- C11 (amended), first with exact arithmetic for the "PAUSED" label at `(367, 401)`:
33 draws, the last one in antique white at `(367, 401)`, and the ring position
`(365, 403)` among the black ones; then with binary32 arithmetic at `x = 16777216`, where
`x + 1` rounds back to `x`: the black draw at offset `(+1, +1)` from `(16777216, 0)` lands
on `(16777216, 1)`. -/
theorem C11_DrawOutlinedString_draws_witness :
    (DrawOutlinedString "PAUSED".toList (367 : ℚ) 401 Color.AntiqueWhite (9 / 2)).length
      = 33 ∧
    (DrawOutlinedString "PAUSED".toList (367 : ℚ) 401 Color.AntiqueWhite (9 / 2)).getLast?
      = some (DrawOp.DrawString "PAUSED".toList 367 401 Color.AntiqueWhite (9 / 2)) ∧
    ((365 : ℚ), (403 : ℚ)) ∈ outlinePositions (367 : ℚ) 401 ∧
    DrawOp.DrawString "A".toList ({ val := 16777216 } : Binary32) { val := 1 } Color.Black
        { val := 1 }
      ∈ DrawOutlinedString "A".toList ({ val := 16777216 } : Binary32) { val := 0 }
          Color.AntiqueWhite { val := 1 } :=
  have h := C11_DrawOutlinedString_draws "PAUSED".toList (367 : ℚ) 401 Color.AntiqueWhite
    (9 / 2)
  have h32 := C11_DrawOutlinedString_draws "A".toList ({ val := 16777216 } : Binary32)
    { val := 0 } Color.AntiqueWhite { val := 1 }
  ⟨h.2.2.1, h.2.2.2.2.1, h.2.2.2.2.2 (365, 403) (by norm_num [ringPositions]),
    h32.1 ▸ List.mem_append_left _
      (List.mem_map_of_mem
        (fun p : Binary32 × Binary32 =>
          DrawOp.DrawString "A".toList p.1 p.2 Color.Black { val := 1 })
        binary32_position_example)⟩

end NES
